import Mathlib

/-!
# MozTrap: `ui/static/js/local.js`

A shallow embedding of the page script `local.js` and of the part of the
jQuery/DOM vocabulary it uses, followed by the properties of the script.

* The document is a finite tree of element and text nodes (`Node`). An
  element object carries the handlers that were bound to it (`events`); it
  keeps them wherever later insertions move it, and an element created from
  markup has none.
* Inside one document an element is referred to by its position (`Path`,
  the child indices from the root). A jQuery object is a list of such
  references in document order (`JQ`).
* The browser's HTML parser is not part of the script; every definition that
  hands a markup string to jQuery takes the parser as the argument
  `parse : String → List Html`, and the general theorems hold for all
  parsers. The worked examples use `htmlParse`, a parser for well-nested
  markup, or `textParse`.
-/

namespace MozTrap

/-! ## Document model -/

/-- Attributes of an element, as name/value pairs in source order. -/
abbrev Attrs := List (String × String)

/-- Parsed markup: the tree an HTML parser builds from a string. -/
inductive Html where
  | text (data : String)
  | elem (tag : String) (attrs : Attrs) (children : List Html)

/-- A compound selector: optional tag name, class names, `[name=value]` tests. -/
structure Compound where
  tag : Option String
  classes : List String
  attrs : List (String × String)

/-- A selector built from compound selectors with the descendant (`A B`) and
child (`A > B`) combinators. -/
inductive Selector where
  | compound (c : Compound)
  | descendant (ancestor : Selector) (c : Compound)
  | child (parent : Selector) (c : Compound)

/-- The handler functions that the script binds to element objects: the click
handler of `autoFocus`, the click handler of `autoScroll` (a closure over
`formcontainer`), and the `ajaxError` handler. -/
inductive Bound where
  | autoFocusClick
  | autoScrollClick (formcontainer : Selector)
  | ajaxError

/-- A DOM node: a text node, or an element with its attributes, the handlers
bound to it, and its child nodes. -/
inductive Node where
  | text (data : String)
  | elem (tag : String) (attrs : Attrs) (events : List Bound) (children : List Node)

mutual
/-- The element objects created from parsed markup: no handler is bound to
any of them. -/
def Html.toNode : Html → Node
  | .text s => .text s
  | .elem t ats cs => .elem t ats [] (Html.toNodes cs)
/-- The nodes created from a list of parsed siblings. -/
def Html.toNodes : List Html → List Node
  | [] => []
  | c :: cs => c.toNode :: Html.toNodes cs
end

/-- The nodes jQuery creates from a markup string. -/
def fragment (parse : String → List Html) (html : String) : List Node :=
  Html.toNodes (parse html)

/-- A reference to a node: the child indices leading to it from the root. -/
abbrev Path := List Nat

/-- A jQuery object: a list of element references. -/
abbrev JQ := List Path

/-- Child nodes of a node (`childNodes`); a text node has none. -/
def Node.children : Node → List Node
  | .text _ => []
  | .elem _ _ _ cs => cs

/-- Value of the attribute `name`, if present (`getAttribute`). -/
def Node.attr : Node → String → Option String
  | .text _, _ => none
  | .elem _ ats _ _, name => ats.lookup name

/-- The handlers bound to a node. -/
def Node.events : Node → List Bound
  | .text _ => []
  | .elem _ _ ev _ => ev

/-- The node a path leads to, if the path is valid in the document. -/
def getAt : Node → Path → Option Node
  | n, [] => some n
  | n, i :: p =>
    match n.children[i]? with
    | some c => getAt c p
    | none => none

/-- Characters that separate class names in a `class` attribute. -/
def isSpace (c : Char) : Bool := c = ' ' || c = '\t' || c = '\n' || c = '\r'

/-- Split a character sequence into its whitespace-separated words; `acc` holds
the characters of the current word in reverse. -/
def splitWords : List Char → List Char → List String
  | acc, [] => if acc = [] then [] else [String.mk acc.reverse]
  | acc, c :: cs =>
    if isSpace c then
      (if acc = [] then splitWords [] cs else String.mk acc.reverse :: splitWords [] cs)
    else splitWords (c :: acc) cs

/-- The class names of a node (`classList`). -/
def Node.classList (n : Node) : List String :=
  match n.attr "class" with
  | some s => splitWords [] s.data
  | none => []

/-- Whether the node carries the class `c`. -/
def Node.hasClass (n : Node) (c : String) : Bool := decide (c ∈ n.classList)

mutual
/-- Paths, relative to the node, of all its proper descendants in document order. -/
def Node.descendants : Node → List Path
  | .text _ => []
  | .elem _ _ _ cs => descendantsFrom 0 cs
/-- Descendant paths through a list of siblings whose first member has index `i`. -/
def descendantsFrom (i : Nat) : List Node → List Path
  | [] => []
  | c :: cs => ([i] :: (c.descendants).map (i :: ·)) ++ descendantsFrom (i + 1) cs
end

/-- All node references of a document, in document order. -/
def allPaths (dom : Node) : List Path := [] :: dom.descendants

/-- The node at a path together with its ancestors, nearest first. -/
def locate : List Node → Node → Path → Option (List Node × Node)
  | anc, n, [] => some (anc, n)
  | anc, n, i :: p =>
    match n.children[i]? with
    | some c => locate (n :: anc) c p
    | none => none

/-! ## Selectors -/

/-- Whether a node satisfies a compound selector; only elements can. -/
def Compound.test (c : Compound) : Node → Bool
  | .text _ => false
  | .elem t ats ev cs =>
    (match c.tag with
      | some t0 => decide (t0 = t)
      | none => true)
    && c.classes.all (fun k => (Node.elem t ats ev cs).hasClass k)
    && c.attrs.all (fun kv => decide ((Node.elem t ats ev cs).attr kv.1 = some kv.2))

/-- Whether a node with the given ancestors (nearest first) matches a selector. -/
def Selector.test : Selector → List Node → Node → Bool
  | .compound c, _, n => c.test n
  | .child s c, anc, n =>
    c.test n &&
      (match anc with
        | p :: rest => s.test rest p
        | [] => false)
  | .descendant s c, anc, n =>
    c.test n &&
      anc.tails.any (fun t =>
        match t with
        | p :: rest => s.test rest p
        | [] => false)

/-- Whether the node at `p` exists and matches the selector. -/
def matchesAt (sel : Selector) (dom : Node) (p : Path) : Bool :=
  match locate [] dom p with
  | some (anc, n) => sel.test anc n
  | none => false

/-- Selector `article.test`. -/
def articleTest : Selector := .compound ⟨some "article", ["test"], []⟩

/-- Selector `article.test button`. -/
def articleTestButton : Selector := .descendant articleTest ⟨some "button", [], []⟩

/-- Selector `.status`. -/
def statusSel : Selector := .compound ⟨none, ["status"], []⟩

/-- Selector `div[role=main]`. -/
def divRoleMain : Selector := .compound ⟨some "div", [], [("role", "main")]⟩

/-- Selector `textarea`. -/
def textareaSel : Selector := .compound ⟨some "textarea", [], []⟩

/-- Selector `details.stepfail > summary`. -/
def stepfailSummary : Selector :=
  .child (.compound ⟨some "details", ["stepfail"], []⟩) ⟨some "summary", [], []⟩

/-- Selector `details.testinvalid > summary`. -/
def testinvalidSummary : Selector :=
  .child (.compound ⟨some "details", ["testinvalid"], []⟩) ⟨some "summary", [], []⟩

/-- Selector `.failform`. -/
def failform : Selector := .compound ⟨none, ["failform"], []⟩

/-! ## jQuery operations -/

/-- The call `$(selector)`: all elements of the document matching the selector. -/
def select (dom : Node) (sel : Selector) : JQ :=
  (allPaths dom).filter (matchesAt sel dom)

/-- The nearest of the element itself and its ancestors that matches. -/
def closestOne (sel : Selector) (dom : Node) : Nat → Path → Option Path
  | 0, _ => none
  | fuel + 1, p =>
    if matchesAt sel dom p then some p
    else if p = [] then none
    else closestOne sel dom fuel p.dropLast

/-- The method `.closest(selector)`. -/
def closest (dom : Node) (sel : Selector) (set : JQ) : JQ :=
  set.filterMap (fun p => closestOne sel dom (p.length + 1) p)

/-- The method `.find(selector)`: matching descendants of the members. -/
def find (dom : Node) (sel : Selector) (set : JQ) : JQ :=
  set.flatMap (fun p =>
    match getAt dom p with
    | some n => ((n.descendants).map (p ++ ·)).filter (matchesAt sel dom)
    | none => [])

/-- The method `.parent()`. -/
def parent (dom : Node) (set : JQ) : JQ :=
  set.filterMap (fun p =>
    if p = [] then none
    else match getAt dom p with
      | some _ => some p.dropLast
      | none => none)

/-- The method `.hasClass(name)`: some member carries the class. -/
def hasClass (dom : Node) (set : JQ) (c : String) : Bool :=
  set.any (fun p =>
    match getAt dom p with
    | some n => n.hasClass c
    | none => false)

/-- The method `.siblings(selector)`: the other children of each member's
parent that match the selector. -/
def siblings (dom : Node) (sel : Selector) (set : JQ) : JQ :=
  set.flatMap (fun p =>
    match p.getLast?, getAt dom p.dropLast with
    | some i, some par =>
      (((List.range par.children.length).filter (fun j => decide (j ≠ i))).map
        (fun j => p.dropLast ++ [j])).filter (matchesAt sel dom)
    | _, _ => [])

/-- The method `.attr(name)`: the attribute of the first member. -/
def attr (dom : Node) (set : JQ) (name : String) : Option String :=
  match set with
  | [] => none
  | p :: _ => (getAt dom p).bind (fun n => n.attr name)

/-- The references of `targets` that lead through child `i`, made relative to
that child. -/
def strip (i : Nat) (targets : JQ) : JQ :=
  targets.filterMap (fun p =>
    match p with
    | j :: q => if j = i then some q else none
    | [] => none)

mutual
/-- Replace every targeted proper descendant of the node by `frag`. -/
def replaceGo (frag : List Node) : JQ → Node → Node
  | _, .text s => .text s
  | targets, .elem t ats ev cs => .elem t ats ev (replaceList frag targets 0 cs)
/-- Replacement in a list of siblings whose first member has index `i`. -/
def replaceList (frag : List Node) (targets : JQ) (i : Nat) : List Node → List Node
  | [] => []
  | c :: cs =>
    (if [] ∈ strip i targets then frag else [replaceGo frag (strip i targets) c])
      ++ replaceList frag targets (i + 1) cs
end

/-- The method `.replaceWith(html)`: each member is replaced, in its parent,
by the nodes created from `html`. -/
def replaceWith (parse : String → List Html) (dom : Node) (set : JQ) (html : String) : Node :=
  replaceGo (fragment parse html) set dom

mutual
/-- Add the handler `b` to the events of every targeted element. -/
def bindGo (b : Bound) : JQ → Node → Node
  | _, .text s => .text s
  | targets, .elem t ats ev cs =>
    .elem t ats (if [] ∈ targets then ev ++ [b] else ev) (bindList b targets 0 cs)
/-- Binding below a list of siblings whose first member has index `i`. -/
def bindList (b : Bound) (targets : JQ) (i : Nat) : List Node → List Node
  | [] => []
  | c :: cs => bindGo b (strip i targets) c :: bindList b targets (i + 1) cs
end

/-- Binding a handler on a jQuery object (`.click(fn)`, `.ajaxError(fn)`): the
handler is attached to each member element. -/
def bind (dom : Node) (set : JQ) (b : Bound) : Node :=
  bindGo b set dom

/-- The method `.prepend(html)` on `$(this)`: the nodes created from `html`
become the first children of the element. -/
def prependTo (parse : String → List Html) (this : Node) (html : String) : Node :=
  match this with
  | .text s => .text s
  | .elem t ats ev cs => .elem t ats ev (fragment parse html ++ cs)

/-! ## The script -/

/-- An asynchronous POST issued by `$.post(url, data, callback)`: the URL and
the form fields are values computed when the call is made; `testcase` is the
jQuery object captured by the success callback. -/
structure Request where
  url : Option String
  data : List (String × Option String)
  testcase : JQ
  deriving DecidableEq

/-- What a handler asks of the browser. -/
inductive Effect where
  | post (request : Request)
  | focus (targets : JQ)
  | scrollTo (targets : JQ) (duration : Nat)
  deriving DecidableEq

/-- The request object passed to an `ajaxError` handler. -/
structure XHR where
  responseText : String

/-- The click handler bound by `testCaseButtons` (lines 4-18), run with `this`
the clicked button: one `$.post` whose URL is the `data-action-url` of the
closest `article.test` and whose data is the button's `data-action`. The call
`event.preventDefault()` only suppresses the browser's default action and has
no counterpart here. -/
def testCaseClick (dom : Node) (this : Path) : List Effect :=
  let button : JQ := [this]
  let testcase := closest dom articleTest button
  [Effect.post
    ⟨attr dom testcase "data-action-url",
     [("action", attr dom button "data-action")],
     testcase⟩]

/-- The success callback of the POST (lines 15-17):
`testcase.find(".status").replaceWith(data)`. -/
def successCallback (parse : String → List Html) (testcase : JQ) (data : String)
    (dom : Node) : Node :=
  replaceWith parse dom (find dom statusSel testcase) data

/-- The `ajaxError` handler (lines 24-28), run with `this` the element it is
bound to:
`$(this).prepend('<aside class="error">' + request.responseText + '</aside>')`. -/
def ajaxErrorHandler (parse : String → List Html) (this : Node) (request : XHR) : Node :=
  prependTo parse this ("<aside class=\"error\">" ++ request.responseText ++ "</aside>")

/-- The click handler bound by `autoFocus` (lines 34-38). -/
def autoFocusClick (dom : Node) (this : Path) : List Effect :=
  if hasClass dom (parent dom [this]) "open" then
    [Effect.focus (find dom textareaSel (parent dom [this]))]
  else []

/-- The click handler bound by `autoScroll` (lines 44-48). -/
def autoScrollClick (formcontainer : Selector) (dom : Node) (this : Path) : List Effect :=
  if hasClass dom (parent dom [this]) "open" then
    [Effect.scrollTo (siblings dom formcontainer [this]) 750]
  else []

/-- What a handler bound to an element does when the element is clicked, run
with `this` the element; the `ajaxError` handler is not a click handler. -/
def Bound.run : Bound → Node → Path → List Effect
  | .autoFocusClick, dom, this => MozTrap.autoFocusClick dom this
  | .autoScrollClick fc, dom, this => MozTrap.autoScrollClick fc dom this
  | .ajaxError, _, _ => []

/-- Whether the handler is the `ajaxError` handler. -/
def Bound.isAjaxError : Bound → Bool
  | .ajaxError => true
  | _ => false

/-- A page: the document, whose elements carry the handlers bound to them, and
the selectors for which `.live("click", fn)` registered the click handler of
`testCaseButtons`; a live selector is matched against the document when the
click happens. -/
structure Page where
  live : List Selector
  dom : Node

/-- Function `testCaseButtons` (lines 1-19). -/
def testCaseButtons (pg : Page) : Page :=
  ⟨pg.live ++ [articleTestButton], pg.dom⟩

/-- The first ready callback (lines 21-29): `testCaseButtons()`, then the
`ajaxError` handler is bound to the elements matching `div[role=main]`. -/
def readyMain (pg : Page) : Page :=
  let pg1 := testCaseButtons pg
  ⟨pg1.live, bind pg1.dom (select pg1.dom divRoleMain) Bound.ajaxError⟩

/-- Function `autoFocus(trigger)` (lines 31-39). -/
def autoFocus (trigger : Selector) (dom : Node) : Node :=
  let button := select dom trigger
  bind dom button Bound.autoFocusClick

/-- Function `autoScroll(trigger, formcontainer)` (lines 41-49). -/
def autoScroll (trigger formcontainer : Selector) (dom : Node) : Node :=
  let button := select dom trigger
  bind dom button (Bound.autoScrollClick formcontainer)

/-- The second ready callback (lines 51-55). -/
def readyDetails (pg : Page) : Page :=
  ⟨pg.live,
    autoFocus testinvalidSummary
      (autoScroll stepfailSummary failform
        (autoFocus stepfailSummary pg.dom))⟩

/-- The page after both ready callbacks have run on the loaded document. -/
def ready (dom : Node) : Page :=
  readyDetails (readyMain ⟨[], dom⟩)

/-! ## Events -/

/-- A click delivered to the element `target` of the document `dom`: every
handler runs with `this` the element. The handlers bound to the element
object run first, in binding order, then the handler of `testCaseButtons` for
each live selector the element matches in the document as it is now. -/
def click (live : List Selector) (dom : Node) (target : Path) : List Effect :=
  (match getAt dom target with
    | some n => n.events.flatMap (fun b => b.run dom target)
    | none => [])
    ++ ((live.filter (fun sel => matchesAt sel dom target)).flatMap
      (fun _ => testCaseClick dom target))

mutual
/-- The global `ajaxError` event: jQuery runs every `ajaxError` handler bound
to an element, with `this` that element. -/
def ajaxErrorEvent (parse : String → List Html) (request : XHR) : Node → Node
  | .text s => .text s
  | .elem t ats ev cs =>
    (ev.filter Bound.isAjaxError).foldl
      (fun this _ => ajaxErrorHandler parse this request)
      (.elem t ats ev (ajaxErrorEventList parse request cs))
/-- The `ajaxError` event in a list of siblings. -/
def ajaxErrorEventList (parse : String → List Html) (request : XHR) : List Node → List Node
  | [] => []
  | c :: cs => ajaxErrorEvent parse request c :: ajaxErrorEventList parse request cs
end

/-- The outcome of a request. -/
inductive Response where
  | success (data : String)
  | error (request : XHR)

/-- Completion of a POST issued by `testCaseClick`: on success jQuery calls the
success callback, on failure it raises the global `ajaxError` event. -/
def complete (parse : String → List Html) (req : Request) : Response → Node → Node
  | .success data, dom => successCallback parse req.testcase data dom
  | .error request, dom => ajaxErrorEvent parse request dom

/-! ## A parser for well-nested markup -/

/-- A piece of markup: a start tag, an end tag, or character data. -/
inductive Token where
  | startTag (tag : String) (attrs : Attrs)
  | endTag (tag : String)
  | chars (data : String)

/-- Where the attribute reader is: in a name, after `=`, or inside a quoted
value. -/
inductive AttrMode where
  | name
  | equals
  | value

/-- Read attributes of the form `name="value"` separated by spaces; `name` and
`value` hold the characters read so far, in reverse. -/
def readAttrs : AttrMode → List Char → List Char → List Char → Attrs
  | _, _, _, [] => []
  | .name, name, value, c :: cs =>
    if c = '=' then readAttrs .equals name value cs
    else if isSpace c then readAttrs .name [] [] cs
    else readAttrs .name (c :: name) value cs
  | .equals, name, _, c :: cs =>
    if c = '"' then readAttrs .value name [] cs
    else readAttrs .name [] [] cs
  | .value, name, value, c :: cs =>
    if c = '"' then
      (String.mk name.reverse, String.mk value.reverse) :: readAttrs .name [] [] cs
    else readAttrs .value name (c :: value) cs

/-- The token for the characters between `<` and `>`. -/
def readTag (body : List Char) : Token :=
  match body with
  | c :: rest =>
    if c = '/' then .endTag (String.mk (rest.takeWhile (fun x => !isSpace x)))
    else
      .startTag (String.mk (body.takeWhile (fun x => !isSpace x)))
        (readAttrs .name [] [] (body.dropWhile (fun x => !isSpace x)))
  | [] => .chars "<>"

/-- Cut markup into tokens; the flag tells whether the reader is inside a tag,
`acc` holds the characters of the current token in reverse. -/
def tokenize : Bool → List Char → List Char → List Token
  | false, acc, [] => if acc = [] then [] else [.chars (String.mk acc.reverse)]
  | true, _, [] => []
  | false, acc, c :: cs =>
    if c = '<' then
      (if acc = [] then tokenize true [] cs
       else .chars (String.mk acc.reverse) :: tokenize true [] cs)
    else tokenize false (c :: acc) cs
  | true, acc, c :: cs =>
    if c = '>' then readTag acc.reverse :: tokenize false [] cs
    else tokenize true (c :: acc) cs

/-- An element that is still open: its tag, its attributes and the children
read so far, in reverse. -/
abbrev Frame := String × Attrs × List Html

/-- Append a finished node to the innermost open element, or to the top level
(kept in reverse) when none is open. -/
def addNode (h : Html) : List Frame → List Html → List Frame × List Html
  | [], top => ([], h :: top)
  | (t, ats, kids) :: stack, top => ((t, ats, h :: kids) :: stack, top)

/-- Close the open elements around the finished node `h`, innermost first. -/
def closeInto (h : Html) : List Frame → List Html → List Html
  | [], top => h :: top
  | (t, ats, kids) :: stack, top => closeInto (.elem t ats (h :: kids).reverse) stack top

/-- Close every element that is still open at the end of the markup. -/
def closeAll : List Frame → List Html → List Html
  | [], top => top
  | (t, ats, kids) :: stack, top => closeInto (.elem t ats kids.reverse) stack top

/-- Build the tree: a start tag opens an element, an end tag closes the
innermost open element when it has that tag and is ignored otherwise. -/
def build : List Token → List Frame → List Html → List Html
  | [], stack, top => (closeAll stack top).reverse
  | .chars s :: ts, stack, top =>
    build ts (addNode (.text s) stack top).1 (addNode (.text s) stack top).2
  | .startTag t ats :: ts, stack, top => build ts ((t, ats, []) :: stack) top
  | .endTag _ :: ts, [], top => build ts [] top
  | .endTag t :: ts, (t1, ats, kids) :: stack, top =>
    if t = t1 then
      build ts (addNode (.elem t1 ats kids.reverse) stack top).1
        (addNode (.elem t1 ats kids.reverse) stack top).2
    else build ts ((t1, ats, kids) :: stack) top

/-- A parser for markup in which attribute values are double-quoted and every
end tag either closes the innermost open element or matches no open element. -/
def htmlParse (s : String) : List Html :=
  build (tokenize false [] s.data) [] []

/-- A parser that yields the markup as a single text node. -/
def textParse (s : String) : List Html := [Html.text s]

/-! ## Reference descriptions used in the statements -/

/-- Apply `f` to the node at path `p`, leaving the rest of the document as it
is; a path that leads nowhere changes nothing. -/
def updateAt : Path → (Node → Node) → Node → Node
  | [], f, n => f n
  | _ :: _, _, .text s => .text s
  | i :: p, f, .elem t ats ev cs =>
    match cs[i]? with
    | some c => .elem t ats ev (cs.set i (updateAt p f c))
    | none => .elem t ats ev cs

mutual
/-- Replace every descendant of the node that matches `.status` by `frag`;
all other nodes stay. -/
def swapStatus (frag : List Node) : Node → Node
  | .text s => .text s
  | .elem t ats ev cs => .elem t ats ev (swapStatusList frag cs)
/-- The replacement of `swapStatus` in a list of siblings. -/
def swapStatusList (frag : List Node) : List Node → List Node
  | [] => []
  | c :: cs =>
    (if c.hasClass "status" then frag else [swapStatus frag c]) ++ swapStatusList frag cs
end

mutual
/-- No `ajaxError` handler is bound to the node or to a node below it. -/
def Node.unbound : Node → Bool
  | .text _ => true
  | .elem _ _ ev cs => (ev.filter Bound.isAjaxError).isEmpty && unboundList cs
/-- No `ajaxError` handler is bound in a list of siblings. -/
def unboundList : List Node → Bool
  | [] => true
  | c :: cs => c.unbound && unboundList cs
end

/-- Where the node at path `p` of `dom` is found after an `ajaxError` event
whose banner consists of `k` nodes: below every element that carries the
handler the child indices grow by `k` for each handler run. -/
def relocate (k : Nat) : Node → Path → Path
  | _, [] => []
  | .text _, i :: p => i :: p
  | .elem _ _ ev cs, i :: p =>
    (i + (ev.filter Bound.isAjaxError).length * k) ::
      (match cs[i]? with
        | some c => relocate k c p
        | none => p)

/-- A sequence of failed requests with the given response bodies, in order:
the document after them, and where the node first found at `p` is then. -/
def failures (parse : String → List Html) (req : Request) :
    List String → Node × Path → Node × Path
  | [], s => s
  | r :: rs, s =>
    failures parse req rs
      (complete parse req (.error ⟨r⟩) s.1,
       relocate (fragment parse ("<aside class=\"error\">" ++ r ++ "</aside>")).length s.1 s.2)

/-- The banner fragment repeated once for each handler run. -/
def repeatFrag (frag : List Node) : Nat → List Node
  | 0 => []
  | n + 1 => frag ++ repeatFrag frag n

/-- The compound selector a selector ends in: the one the element itself must
satisfy. -/
def Selector.subject : Selector → Compound
  | .compound c => c
  | .descendant _ c => c
  | .child _ c => c

/-- Tag name and attributes of an element; a text node has none. -/
def Node.head : Node → Option (String × Attrs)
  | .text _ => none
  | .elem t ats _ _ => some (t, ats)

/-- The targets that lead through the node at path `p`, made relative to it. -/
def stripPath : Path → JQ → JQ
  | [], targets => targets
  | i :: p, targets => stripPath p (strip i targets)

/-- The POST requests among a list of effects. -/
def posts (effects : List Effect) : List Request :=
  effects.filterMap (fun e =>
    match e with
    | .post r => some r
    | _ => none)

/-! ## Example documents -/

/-- A test case with a status line, a result button and a step-failure form. -/
def testCaseOne : Html :=
  .elem "article" [("class", "test"), ("data-action-url", "/run/1/")]
    [.elem "p" [("class", "status")] [.text "new"],
     .elem "button" [("data-action", "pass")] [.text "Pass"],
     .elem "details" [("class", "stepfail open")]
       [.elem "summary" [] [.text "Fail step"],
        .elem "div" [("class", "failform")] [.elem "textarea" [] []]]]

/-- A test case with a status line, a result button and an invalid-test form. -/
def testCaseTwo : Html :=
  .elem "article" [("class", "test"), ("data-action-url", "/run/2/")]
    [.elem "p" [("class", "status")] [.text "new"],
     .elem "button" [("data-action", "fail")] [.text "Fail"],
     .elem "details" [("class", "testinvalid open")]
       [.elem "summary" [] [.text "Invalid"],
        .elem "textarea" [] []]]

/-- A page whose main region holds two test cases. -/
def samplePage : Html :=
  .elem "body" [] [.elem "div" [("role", "main")] [testCaseOne, testCaseTwo]]

/-- A page whose main region lies inside the test case. -/
def mainInsidePage : Html :=
  .elem "body" []
    [.elem "article" [("class", "test"), ("data-action-url", "/run/1/")]
      [.elem "div" [("role", "main")]
        [.elem "button" [("data-action", "pass")] [.text "Pass"],
         .elem "p" [("class", "status")] [.text "new"]]]]

/-- A page with one `div[role=main]` inside another. -/
def nestedMainPage : Html :=
  .elem "body" []
    [.elem "div" [("role", "main")]
      [.elem "div" [("role", "main")] [.elem "p" [] [.text "inner"]],
       .elem "p" [] [.text "outer"]]]

/-- The sample page after the ready callbacks have run. -/
def readySample : Node := (ready samplePage.toNode).dom

/-- The children of the node at a path; none if the path leads nowhere. -/
def childrenAt (dom : Node) (p : Path) : List Node :=
  match getAt dom p with
  | some n => n.children
  | none => []

/-- The sample page after one failed request with body `boom`. -/
def failedSample : Node :=
  complete textParse ⟨none, [], []⟩ (.error ⟨"boom"⟩) readySample

/-- The sample page after a response fragment holding an open step-failure
form has replaced the status line of the first test case. -/
def insertedSample : Node :=
  complete htmlParse ⟨none, [], [[0, 0]]⟩
    (.success ("<details class=\"stepfail open\"><summary>Fail</summary>"
      ++ "<div class=\"failform\"><textarea></textarea></div></details>"))
    readySample

/-- The sample page after the call `autoFocus('details.stepfail > summary')`. -/
def focusSample : Node := autoFocus stepfailSummary samplePage.toNode

/-- A later state of `focusSample`: the `ajaxError` handler has been bound to
the main region and one request has failed, so the test cases have moved. -/
def focusSampleLater : Node :=
  complete textParse ⟨none, [], []⟩ (.error ⟨"boom"⟩) (bind focusSample [[0]] Bound.ajaxError)

/-- The sample page after the call
`autoScroll('details.stepfail > summary', '.failform')`. -/
def scrollSample : Node := autoScroll stepfailSummary failform samplePage.toNode

/-- A later state of `scrollSample`: the `ajaxError` handler has been bound to
the main region and one request has failed, so the test cases have moved. -/
def scrollSampleLater : Node :=
  complete textParse ⟨none, [], []⟩ (.error ⟨"boom"⟩) (bind scrollSample [[0]] Bound.ajaxError)

/-- The node at a path; an empty text node if the path leads nowhere. -/
def nodeAt (dom : Node) (p : Path) : Node :=
  match getAt dom p with
  | some n => n
  | none => .text ""

/-- A page with a `details` element carrying both `stepfail` and `testinvalid`. -/
def bothClassesPage : Html :=
  .elem "body" []
    [.elem "details" [("class", "stepfail testinvalid open")]
      [.elem "summary" [] [.text "Fail"],
       .elem "div" [("class", "failform")] [.elem "textarea" [] []]]]

/-! ## Basic facts about the document model -/

theorem getAt_text_cons (s : String) (i : Nat) (p : Path) :
    getAt (.text s) (i :: p) = none := by
  simp [getAt, Node.children]

theorem getAt_elem_cons (t : String) (ats : Attrs) (ev : List Bound) (cs : List Node) (i : Nat) (p : Path) :
    getAt (.elem t ats ev cs) (i :: p) = (cs[i]?).bind (fun c => getAt c p) := by
  simp only [getAt, Node.children]
  cases cs[i]? <;> rfl

theorem getAt_append (dom : Node) (t q : Path) :
    getAt dom (t ++ q) = (getAt dom t).bind (fun n => getAt n q) := by
  induction t generalizing dom with
  | nil => simp [getAt]
  | cons i t ih =>
    simp only [List.cons_append, getAt]
    cases dom.children[i]? with
    | none => rfl
    | some c => exact ih c

theorem locate_snd (anc : List Node) (dom : Node) (p : Path) :
    (locate anc dom p).map Prod.snd = getAt dom p := by
  induction p generalizing anc dom with
  | nil => simp [locate, getAt]
  | cons i p ih =>
    simp only [locate, getAt]
    cases dom.children[i]? with
    | none => rfl
    | some c => exact ih (dom :: anc) c

theorem matchesAt_compound (c : Compound) (dom : Node) (p : Path) :
    matchesAt (.compound c) dom p =
      (match getAt dom p with
        | some n => c.test n
        | none => false) := by
  unfold matchesAt
  rw [← locate_snd [] dom p]
  cases locate [] dom p with
  | none => rfl
  | some r => cases r; rfl

theorem mem_strip (i : Nat) (targets : JQ) (q : Path) :
    q ∈ strip i targets ↔ i :: q ∈ targets := by
  unfold strip
  simp only [List.mem_filterMap]
  constructor
  · rintro ⟨p, hp, h⟩
    cases p with
    | nil => simp at h
    | cons j r =>
      by_cases hj : j = i
      · subst hj; simp at h; subst h; exact hp
      · simp [hj] at h
  · intro h
    exact ⟨i :: q, h, by simp⟩

theorem strip_nil (i : Nat) : strip i [] = [] := rfl

mutual
theorem replaceGo_nil (frag : List Node) : ∀ n : Node, replaceGo frag [] n = n
  | .text s => by simp [replaceGo]
  | .elem t ats ev cs => by
    simp only [replaceGo]
    rw [replaceList_nil frag 0 cs]
theorem replaceList_nil (frag : List Node) :
    ∀ (i : Nat) (cs : List Node), replaceList frag [] i cs = cs
  | _, [] => by simp [replaceList]
  | i, c :: cs => by
    simp only [replaceList, strip_nil, List.not_mem_nil, if_false]
    rw [replaceGo_nil frag c, replaceList_nil frag (i + 1) cs]
    rfl
end


mutual
theorem mem_descendants : ∀ (n : Node) (q : Path),
    q ∈ n.descendants ↔ q ≠ [] ∧ (getAt n q).isSome
  | .text s, q => by
    cases q with
    | nil => simp [Node.descendants]
    | cons i q => simp [Node.descendants, getAt_text_cons]
  | .elem t ats ev cs, q => by
    simp only [Node.descendants]
    rw [mem_descendantsFrom cs 0 q]
    cases q with
    | nil => simp
    | cons i q =>
      simp only [getAt_elem_cons, ne_eq, reduceCtorEq, not_false_eq_true, true_and,
        List.cons.injEq, Nat.zero_add]
      constructor
      · rintro ⟨j, q1, ⟨rfl, rfl⟩, c, hc, h⟩
        simp [hc, h]
      · intro h
        cases hc : cs[i]? with
        | none => simp [hc] at h
        | some c => exact ⟨i, q, ⟨rfl, rfl⟩, c, hc, by simpa [hc] using h⟩
theorem mem_descendantsFrom : ∀ (cs : List Node) (i : Nat) (q : Path),
    q ∈ descendantsFrom i cs ↔
      ∃ j q1, q = (i + j) :: q1 ∧ ∃ c, cs[j]? = some c ∧ (getAt c q1).isSome
  | [], i, q => by simp [descendantsFrom]
  | c :: cs, i, q => by
    simp only [descendantsFrom, List.cons_append, List.mem_cons, List.mem_append, List.mem_map]
    rw [mem_descendantsFrom cs (i + 1) q]
    constructor
    · rintro (h | ⟨q1, hq1, rfl⟩ | ⟨j, q1, rfl, c1, hc1, h⟩)
      · exact ⟨0, [], by simpa using h, c, by simp, by simp [getAt]⟩
      · exact ⟨0, q1, by simp, c, by simp, ((mem_descendants c q1).mp hq1).2⟩
      · exact ⟨j + 1, q1, by simp; omega, c1, by simpa using hc1, h⟩
    · rintro ⟨j, q1, rfl, c1, hc1, h⟩
      cases j with
      | zero =>
        simp only [List.getElem?_cons_zero, Option.some.injEq] at hc1
        subst hc1
        cases q1 with
        | nil => left; simp
        | cons k q2 =>
          right; left
          exact ⟨k :: q2, (mem_descendants c (k :: q2)).mpr ⟨by simp, h⟩, by simp⟩
      | succ j =>
        right; right
        exact ⟨j, q1, by simp; omega, c1, by simpa using hc1, h⟩
end

/-! ## `updateAt` -/

theorem set_same (cs : List Node) (i : Nat) (c : Node) (h : cs[i]? = some c) :
    cs.set i c = cs := by
  apply List.ext_getElem?
  intro j
  rw [List.getElem?_set]
  by_cases hij : i = j
  · subst hij
    have hi : i < cs.length := (List.getElem?_eq_some_iff.mp h).1
    simp [hi, h]
  · simp [hij]

theorem updateAt_elem_cons (t : String) (ats : Attrs) (ev : List Bound) (cs : List Node) (i : Nat) (p : Path)
    (f : Node → Node) :
    updateAt (i :: p) f (.elem t ats ev cs) =
      (match cs[i]? with
        | some c => .elem t ats ev (cs.set i (updateAt p f c))
        | none => .elem t ats ev cs) := by
  simp only [updateAt]

theorem getAt_updateAt_self (t : Path) (f : Node → Node) (dom : Node) :
    getAt (updateAt t f dom) t = (getAt dom t).map f := by
  induction t generalizing dom with
  | nil => simp [updateAt, getAt]
  | cons i t ih =>
    cases dom with
    | text s => simp [updateAt, getAt_text_cons]
    | elem tg ats ev cs =>
      rw [updateAt_elem_cons, getAt_elem_cons]
      cases hc : cs[i]? with
      | none => simp [getAt_elem_cons, hc]
      | some c =>
        have hi : i < cs.length := by
          rcases List.getElem?_eq_some_iff.mp hc with ⟨h, _⟩
          exact h
        simp [getAt_elem_cons, List.getElem?_set, hi, ih c]

theorem updateAt_of_getAt_none (t : Path) (f : Node → Node) (dom : Node)
    (h : getAt dom t = none) : updateAt t f dom = dom := by
  induction t generalizing dom with
  | nil => simp [getAt] at h
  | cons i t ih =>
    cases dom with
    | text s => simp [updateAt]
    | elem tg ats ev cs =>
      rw [updateAt_elem_cons]
      rw [getAt_elem_cons] at h
      cases hc : cs[i]? with
      | none => rfl
      | some c =>
        simp only [hc, Option.some_bind] at h
        simp only [ih c h]
        rw [set_same cs i c hc]

theorem updateAt_congr (t : Path) (f g : Node → Node) (dom n : Node)
    (h : getAt dom t = some n) (hfg : f n = g n) : updateAt t f dom = updateAt t g dom := by
  induction t generalizing dom with
  | nil =>
    simp only [getAt, Option.some.injEq] at h
    subst h
    simpa [updateAt] using hfg
  | cons i t ih =>
    cases dom with
    | text s => simp [updateAt]
    | elem tg ats ev cs =>
      rw [updateAt_elem_cons, updateAt_elem_cons]
      rw [getAt_elem_cons] at h
      cases hc : cs[i]? with
      | none => rfl
      | some c =>
        simp only [hc, Option.some_bind] at h
        simp only [ih c h]

theorem updateAt_comm (t1 t2 : Path) (f g : Node → Node) (dom : Node)
    (h12 : ¬ t1 <+: t2) (h21 : ¬ t2 <+: t1) :
    updateAt t1 f (updateAt t2 g dom) = updateAt t2 g (updateAt t1 f dom) := by
  induction t1 generalizing t2 dom with
  | nil => exact absurd (List.nil_prefix) h12
  | cons i t1 ih =>
    cases t2 with
    | nil => exact absurd (List.nil_prefix) h21
    | cons j t2 =>
      cases dom with
      | text s => simp [updateAt]
      | elem tg ats ev cs =>
        by_cases hij : i = j
        · subst hij
          have h12a : ¬ t1 <+: t2 := fun h => h12 ((List.prefix_cons_inj i).mpr h)
          have h21a : ¬ t2 <+: t1 := fun h => h21 ((List.prefix_cons_inj i).mpr h)
          cases hc : cs[i]? with
          | none => simp [updateAt_elem_cons, hc]
          | some c =>
            have hi : i < cs.length := (List.getElem?_eq_some_iff.mp hc).1
            simp [updateAt_elem_cons, hc, List.getElem?_set, hi, List.set_set, ih t2 c h12a h21a]
        · have hji : j ≠ i := fun h => hij h.symm
          cases hci : cs[i]? with
          | none =>
            cases hcj : cs[j]? with
            | none => simp [updateAt_elem_cons, hci, hcj]
            | some d => simp [updateAt_elem_cons, hci, hcj, List.getElem?_set_ne hji]
          | some c =>
            cases hcj : cs[j]? with
            | none => simp [updateAt_elem_cons, hci, hcj, List.getElem?_set_ne hij]
            | some d =>
              simp only [updateAt_elem_cons, hci, hcj, List.getElem?_set_ne hij,
                List.getElem?_set_ne hji]
              rw [List.set_comm _ _ _ hji]

/-! ## `replaceWith` on the `.status` descendants of one element -/

theorem getElem?_replaceList (frag : List Node) (targets : JQ) :
    ∀ (cs : List Node) (k j : Nat), (∀ i, [] ∉ strip i targets) →
      (replaceList frag targets k cs)[j]? =
        (cs[j]?).map (fun c => replaceGo frag (strip (k + j) targets) c)
  | [], _, _, _ => by simp [replaceList]
  | c :: cs, k, j, h => by
    simp only [replaceList, h k, if_false, List.singleton_append]
    cases j with
    | zero => simp
    | succ j =>
      simp only [List.getElem?_cons_succ]
      rw [getElem?_replaceList frag targets cs (k + 1) j h]
      have : k + 1 + j = k + (j + 1) := by omega
      rw [this]

theorem strip_map_append (i j : Nat) (t : Path) (rel : JQ) :
    strip j (rel.map (fun q => (i :: t) ++ q)) = if j = i then rel.map (fun q => t ++ q) else [] := by
  induction rel with
  | nil => simp [strip]
  | cons q rel ih =>
    unfold strip at ih ⊢
    simp only [List.map_cons, List.cons_append, List.filterMap_cons] at ih ⊢
    by_cases hij : i = j
    · subst hij
      simp only [if_true] at ih ⊢
      rw [ih]
    · have hji : ¬ j = i := fun h => hij h.symm
      simp only [hij, hji, if_false] at ih ⊢
      exact ih

theorem replaceGo_under (frag : List Node) (t : Path) (dom : Node) (rel : JQ)
    (h : [] ∉ rel) :
    replaceGo frag (rel.map (fun q => t ++ q)) dom = updateAt t (replaceGo frag rel) dom := by
  induction t generalizing dom with
  | nil => simp [updateAt]
  | cons i t ih =>
    cases dom with
    | text s => simp [updateAt, replaceGo]
    | elem tg ats ev cs =>
      have hno : ∀ j, [] ∉ strip j (rel.map (fun q => (i :: t) ++ q)) := by
        intro j hj
        rw [mem_strip] at hj
        simp only [List.mem_map] at hj
        rcases hj with ⟨q, hq, he⟩
        simp only [List.cons_append, List.cons.injEq, List.append_eq_nil] at he
        rw [he.2.2] at hq
        exact h hq
      rw [updateAt_elem_cons]
      simp only [replaceGo]
      have key : replaceList frag (rel.map (fun q => (i :: t) ++ q)) 0 cs =
          (match cs[i]? with
            | some c => cs.set i (updateAt t (replaceGo frag rel) c)
            | none => cs) := by
        apply List.ext_getElem?
        intro j
        rw [getElem?_replaceList frag _ cs 0 j hno, Nat.zero_add, strip_map_append]
        by_cases hji : j = i
        · subst hji
          cases hc : cs[j]? with
          | none => simp [hc]
          | some c =>
            have hj : j < cs.length := (List.getElem?_eq_some_iff.mp hc).1
            simp [hc, List.getElem?_set, hj, ih c]
        · have hij : i ≠ j := fun h => hji h.symm
          simp only [hji, if_false]
          cases hc : cs[i]? with
          | none =>
            cases cs[j]? <;> simp [replaceGo_nil]
          | some c =>
            simp only [List.getElem?_set_ne hij]
            cases cs[j]? <;> simp [replaceGo_nil]
      rw [key]
      cases cs[i]? <;> rfl

mutual
theorem replaceGo_status (frag : List Node) : ∀ (n : Node) (targets : JQ),
    (∀ i q, i :: q ∈ targets ↔
      ∃ m, getAt n (i :: q) = some m ∧ m.hasClass "status" = true) →
    replaceGo frag targets n = swapStatus frag n
  | .text s, _, _ => by simp [replaceGo, swapStatus]
  | .elem t ats ev cs, targets, h => by
    simp only [replaceGo, swapStatus]
    rw [replaceList_status frag cs 0 targets]
    intro j q
    rw [Nat.zero_add, h j q, getAt_elem_cons]
    cases cs[j]? <;> simp
theorem replaceList_status (frag : List Node) : ∀ (cs : List Node) (i : Nat) (targets : JQ),
    (∀ j q, (i + j) :: q ∈ targets ↔
      ∃ c, cs[j]? = some c ∧ ∃ m, getAt c q = some m ∧ m.hasClass "status" = true) →
    replaceList frag targets i cs = swapStatusList frag cs
  | [], _, _, _ => by simp [replaceList, swapStatusList]
  | c :: cs, i, targets, h => by
    simp only [replaceList, swapStatusList]
    have h0 : ([] ∈ strip i targets) ↔ c.hasClass "status" = true := by
      rw [mem_strip]
      have := h 0 []
      simpa [getAt] using this
    have hrest : replaceList frag targets (i + 1) cs = swapStatusList frag cs :=
      replaceList_status frag cs (i + 1) targets (by
        intro j q
        have := h (j + 1) q
        have e : i + 1 + j = i + (j + 1) := by omega
        rw [e]
        simpa using this)
    rw [hrest]
    by_cases hc : c.hasClass "status" = true
    · simp [hc, h0.mpr hc]
    · have hn : [] ∉ strip i targets := fun hh => hc (h0.mp hh)
      rw [replaceGo_status frag c (strip i targets) (by
        intro k q
        rw [mem_strip]
        have := h 0 (k :: q)
        simpa using this)]
      simp [hn, hc]
end

theorem hasClass_text (s c : String) : (Node.text s).hasClass c = false := by
  simp [Node.hasClass, Node.classList, Node.attr]

theorem status_test (m : Node) :
    Compound.test ⟨none, ["status"], []⟩ m = m.hasClass "status" := by
  cases m with
  | text s => simp [Compound.test, hasClass_text]
  | elem t ats ev cs => simp [Compound.test]

theorem matchesAt_status (dom : Node) (p : Path) :
    matchesAt statusSel dom p =
      (match getAt dom p with
        | some n => n.hasClass "status"
        | none => false) := by
  unfold statusSel
  rw [matchesAt_compound]
  cases getAt dom p with
  | none => rfl
  | some n => exact status_test n

theorem find_single (dom : Node) (sel : Selector) (t : Path) :
    find dom sel [t] =
      (match getAt dom t with
        | some n => ((n.descendants).map (fun q => t ++ q)).filter (matchesAt sel dom)
        | none => []) := by
  simp [find]

theorem successCallback_eq (parse : String → List Html) (t : Path) (data : String)
    (dom : Node) :
    successCallback parse [t] data dom = updateAt t (swapStatus (fragment parse data)) dom := by
  unfold successCallback replaceWith
  rw [find_single]
  cases h : getAt dom t with
  | none =>
    simp only []
    rw [replaceGo_nil, updateAt_of_getAt_none t _ dom h]
  | some n =>
    simp only []
    rw [List.filter_map]
    have hnil : [] ∉ List.filter (matchesAt statusSel dom ∘ fun q => t ++ q) n.descendants := by
      intro hh
      have := (List.mem_filter.mp hh).1
      rw [mem_descendants] at this
      exact this.1 rfl
    rw [replaceGo_under (fragment parse data) t dom _ hnil]
    apply updateAt_congr t _ _ dom n h
    apply replaceGo_status
    intro i q
    rw [List.mem_filter, mem_descendants]
    simp only [Function.comp, matchesAt_status, getAt_append, h, Option.some_bind]
    cases hq : getAt n (i :: q) with
    | none => simp
    | some m => simp


/-! ## Selector matching and `closest` -/

theorem Selector.test_subject (sel : Selector) (anc : List Node) (n : Node)
    (h : sel.test anc n = true) : sel.subject.test n = true := by
  cases sel with
  | compound c => simpa [Selector.test, Selector.subject] using h
  | descendant s c =>
    simp only [Selector.test, Bool.and_eq_true] at h
    exact h.1
  | child s c =>
    simp only [Selector.test, Bool.and_eq_true] at h
    exact h.1

theorem matchesAt_subject (sel : Selector) (dom : Node) (p : Path)
    (h : matchesAt sel dom p = true) :
    ∃ n, getAt dom p = some n ∧ sel.subject.test n = true := by
  unfold matchesAt at h
  have hs := locate_snd [] dom p
  cases hl : locate [] dom p with
  | none => simp [hl] at h
  | some r =>
    rw [hl] at h hs
    exact ⟨r.2, by simpa using hs.symm, Selector.test_subject sel r.1 r.2 h⟩

theorem tag_of_test (t0 : String) (cl : List String) (as0 : List (String × String)) (n : Node)
    (h : Compound.test ⟨some t0, cl, as0⟩ n = true) :
    ∃ ats ev cs, n = .elem t0 ats ev cs := by
  cases n with
  | text s => simp [Compound.test] at h
  | elem t ats ev cs =>
    simp only [Compound.test, Bool.and_eq_true, decide_eq_true_eq] at h
    exact ⟨ats, ev, cs, by rw [h.1.1]⟩

theorem mem_locate (p : Path) : ∀ (anc0 : List Node) (dom : Node) (anc : List Node) (n : Node),
    locate anc0 dom p = some (anc, n) →
    ∀ m, (m ∈ anc ↔ m ∈ anc0 ∨ ∃ q, q <+: p ∧ q ≠ p ∧ getAt dom q = some m) := by
  induction p with
  | nil =>
    intro anc0 dom anc n h m
    simp only [locate, Option.some.injEq, Prod.mk.injEq] at h
    rw [← h.1]
    simp only [List.prefix_nil]
    constructor
    · intro hm; exact Or.inl hm
    · rintro (hm | ⟨q, hq, hne, _⟩)
      · exact hm
      · exact absurd hq hne
  | cons i p ih =>
    intro anc0 dom anc n h m
    simp only [locate] at h
    cases hc : dom.children[i]? with
    | none => simp [hc] at h
    | some c =>
      simp only [hc] at h
      rw [ih (dom :: anc0) c anc n h m]
      constructor
      · rintro (hm | ⟨q, hq, hne, hg⟩)
        · rcases List.mem_cons.mp hm with hm | hm
          · exact Or.inr ⟨[], List.nil_prefix, by simp, by simp [getAt, hm]⟩
          · exact Or.inl hm
        · refine Or.inr ⟨i :: q, (List.prefix_cons_inj i).mpr hq, by simpa using hne, ?_⟩
          simp [getAt, hc, hg]
      · rintro (hm | ⟨q, hq, hne, hg⟩)
        · exact Or.inl (List.mem_cons_of_mem _ hm)
        · cases q with
          | nil =>
            simp only [getAt, Option.some.injEq] at hg
            exact Or.inl (by simp [hg])
          | cons j q =>
            have hj := List.cons_prefix_cons.mp hq
            have hji : j = i := hj.1
            subst hji
            refine Or.inr ⟨q, hj.2, by simpa using hne, ?_⟩
            simpa [getAt, hc] using hg

theorem matchesAt_articleTestButton (dom : Node) (b : Path)
    (h : matchesAt articleTestButton dom b = true) :
    ∃ q, q <+: b ∧ q ≠ b ∧ matchesAt articleTest dom q = true := by
  unfold matchesAt at h
  cases hl : locate [] dom b with
  | none => simp [hl] at h
  | some r =>
    obtain ⟨anc, n⟩ := r
    simp only [hl, articleTestButton, Selector.test, Bool.and_eq_true, articleTest] at h
    have h2 := h.2
    rw [List.any_eq_true] at h2
    obtain ⟨t, ht, htest⟩ := h2
    cases t with
    | nil => simp at htest
    | cons m rest =>
      have hm : m ∈ anc := by
        have hsuf : (m :: rest) <:+ anc := (List.mem_tails _ _).mp ht
        exact hsuf.subset (List.mem_cons_self m rest)
      rcases (mem_locate b [] dom anc n hl m).mp hm with hm0 | ⟨q, hq, hne, hg⟩
      · simp at hm0
      · refine ⟨q, hq, hne, ?_⟩
        unfold articleTest
        rw [matchesAt_compound, hg]
        exact htest

theorem closestOne_spec (sel : Selector) (dom : Node) (fuel : Nat) :
    ∀ (p t : Path), closestOne sel dom fuel p = some t →
      t <+: p ∧ matchesAt sel dom t = true ∧
        ∀ q, t <+: q → q <+: p → q ≠ t → matchesAt sel dom q = false := by
  induction fuel with
  | zero => intro p t h; simp [closestOne] at h
  | succ fuel ih =>
    intro p t h
    simp only [closestOne] at h
    by_cases hm : matchesAt sel dom p = true
    · simp only [hm, if_true, Option.some.injEq] at h
      subst h
      refine ⟨List.prefix_refl _, hm, ?_⟩
      intro q h1 h2 hne
      exact absurd (h2.eq_of_length_le h1.length_le) hne
    · simp only [hm, if_false] at h
      by_cases hp : p = []
      · simp [hp] at h
      · simp only [hp, if_false] at h
        obtain ⟨h1, h2, h3⟩ := ih p.dropLast t h
        refine ⟨h1.trans (List.dropLast_prefix p), h2, ?_⟩
        intro q hq1 hq2 hne
        by_cases hqp : q = p
        · subst hqp; simpa using hm
        · have : q <+: p.dropLast := by
            have hp2 := List.dropLast_concat_getLast hp
            rw [← hp2] at hq2
            rcases List.prefix_concat_iff.mp hq2 with h | h
            · rw [hp2] at h; exact absurd h hqp
            · exact h
          exact h3 q hq1 this hne

theorem closestOne_complete (sel : Selector) (dom : Node) (fuel : Nat) :
    ∀ (p q : Path), p.length < fuel → q <+: p → matchesAt sel dom q = true →
      ∃ t, closestOne sel dom fuel p = some t := by
  induction fuel with
  | zero => intro p q h; omega
  | succ fuel ih =>
    intro p q hlen hq hm
    simp only [closestOne]
    by_cases hmp : matchesAt sel dom p = true
    · exact ⟨p, by simp [hmp]⟩
    · simp only [hmp, if_false]
      have hqp : q ≠ p := fun e => hmp (e ▸ hm)
      by_cases hp : p = []
      · subst hp
        exact absurd (List.prefix_nil.mp hq) hqp
      · simp only [hp, if_false]
        have hq2 : q <+: p.dropLast := by
          have hp2 := List.dropLast_concat_getLast hp
          rw [← hp2] at hq
          rcases List.prefix_concat_iff.mp hq with h | h
          · rw [hp2] at h; exact absurd h hqp
          · exact h
        have hl : p.dropLast.length < fuel := by
          rw [List.length_dropLast]
          have : 0 < p.length := List.length_pos.mpr hp
          omega
        exact ih p.dropLast q hl hq2 hm

theorem getAt_updateAt_other (t1 t2 : Path) (f : Node → Node) (dom : Node)
    (h12 : ¬ t1 <+: t2) (h21 : ¬ t2 <+: t1) :
    getAt (updateAt t1 f dom) t2 = getAt dom t2 := by
  induction t1 generalizing t2 dom with
  | nil => exact absurd (List.nil_prefix) h12
  | cons i t1 ih =>
    cases t2 with
    | nil => exact absurd (List.nil_prefix) h21
    | cons j t2 =>
      cases dom with
      | text s => simp [updateAt]
      | elem tg ats ev cs =>
        rw [updateAt_elem_cons]
        cases hc : cs[i]? with
        | none => rfl
        | some c =>
          simp only [getAt_elem_cons]
          by_cases hij : i = j
          · subst hij
            have h12a : ¬ t1 <+: t2 := fun h => h12 ((List.prefix_cons_inj i).mpr h)
            have h21a : ¬ t2 <+: t1 := fun h => h21 ((List.prefix_cons_inj i).mpr h)
            have hi : i < cs.length := (List.getElem?_eq_some_iff.mp hc).1
            simp [List.getElem?_set, hi, hc, ih t2 c h12a h21a]
          · rw [List.getElem?_set_ne hij]


theorem mem_select (dom : Node) (sel : Selector) (p : Path) :
    p ∈ select dom sel ↔ matchesAt sel dom p = true := by
  unfold select allPaths
  rw [List.mem_filter]
  constructor
  · exact fun h => h.2
  · intro h
    refine ⟨?_, h⟩
    obtain ⟨n, hn, _⟩ := matchesAt_subject sel dom p h
    cases p with
    | nil => simp
    | cons i q =>
      right
      exact (mem_descendants dom (i :: q)).mpr ⟨by simp, by simp [hn]⟩



/-! ## Elements created from markup -/

mutual
theorem toNode_unbound : ∀ h : Html, (h.toNode).unbound = true
  | .text s => by simp [Html.toNode, Node.unbound]
  | .elem t ats cs => by
    simp only [Html.toNode, Node.unbound, List.filter_nil, List.isEmpty_nil, Bool.true_and]
    exact toNodes_unbound cs
theorem toNodes_unbound : ∀ hs : List Html, unboundList (Html.toNodes hs) = true
  | [] => by simp [Html.toNodes, unboundList]
  | h :: hs => by
    simp only [Html.toNodes, unboundList, Bool.and_eq_true]
    exact ⟨toNode_unbound h, toNodes_unbound hs⟩
end

mutual
theorem toNode_events : ∀ (h : Html) (q : Path) (n : Node),
    getAt h.toNode q = some n → n.events = []
  | .text s, q, n, hq => by
    cases q with
    | nil =>
      simp only [getAt, Html.toNode, Option.some.injEq] at hq
      subst hq; rfl
    | cons i q => simp [Html.toNode, getAt_text_cons] at hq
  | .elem t ats cs, q, n, hq => by
    cases q with
    | nil =>
      simp only [getAt, Html.toNode, Option.some.injEq] at hq
      subst hq; rfl
    | cons i q =>
      simp only [Html.toNode, getAt_elem_cons] at hq
      exact toNodes_events cs i q n hq
theorem toNodes_events : ∀ (hs : List Html) (i : Nat) (q : Path) (n : Node),
    ((Html.toNodes hs)[i]?).bind (fun c => getAt c q) = some n → n.events = []
  | [], i, q, n, hq => by simp [Html.toNodes] at hq
  | h :: hs, i, q, n, hq => by
    cases i with
    | zero =>
      simp only [Html.toNodes, List.getElem?_cons_zero, Option.some_bind] at hq
      exact toNode_events h q n hq
    | succ i =>
      simp only [Html.toNodes, List.getElem?_cons_succ] at hq
      exact toNodes_events hs i q n hq
end

theorem unboundList_append (a b : List Node) :
    unboundList (a ++ b) = (unboundList a && unboundList b) := by
  induction a with
  | nil => simp [unboundList]
  | cons x a ih => simp [unboundList, ih, Bool.and_assoc]

/-! ## Binding handlers -/

theorem getElem?_bindList (b : Bound) (targets : JQ) :
    ∀ (cs : List Node) (k j : Nat),
      (bindList b targets k cs)[j]? =
        (cs[j]?).map (fun c => bindGo b (strip (k + j) targets) c)
  | [], _, _ => by simp [bindList]
  | c :: cs, k, j => by
    simp only [bindList]
    cases j with
    | zero => simp
    | succ j =>
      simp only [List.getElem?_cons_succ]
      rw [getElem?_bindList b targets cs (k + 1) j]
      have : k + 1 + j = k + (j + 1) := by omega
      rw [this]

theorem mem_stripPath (p : Path) : ∀ (targets : JQ) (q : Path),
    q ∈ stripPath p targets ↔ p ++ q ∈ targets := by
  induction p with
  | nil => intro targets q; simp [stripPath]
  | cons i p ih =>
    intro targets q
    simp only [stripPath, List.cons_append]
    rw [ih (strip i targets) q, mem_strip]

theorem getAt_bindGo (b : Bound) : ∀ (p : Path) (targets : JQ) (dom : Node),
    getAt (bindGo b targets dom) p = (getAt dom p).map (bindGo b (stripPath p targets)) := by
  intro p
  induction p with
  | nil => intro targets dom; simp [getAt, stripPath]
  | cons i p ih =>
    intro targets dom
    cases dom with
    | text s => simp [bindGo, getAt_text_cons]
    | elem t ats ev cs =>
      simp only [bindGo, getAt_elem_cons, stripPath]
      rw [getElem?_bindList, Nat.zero_add]
      cases hc : cs[i]? with
      | none => simp
      | some c => simpa using ih (strip i targets) c

theorem getAt_bind_elem (b : Bound) (p : Path) (targets : JQ) (dom : Node)
    (t : String) (ats : Attrs) (ev : List Bound) (cs : List Node)
    (h : getAt dom p = some (.elem t ats ev cs)) :
    ∃ cs1, getAt (bindGo b targets dom) p =
      some (.elem t ats (if p ∈ targets then ev ++ [b] else ev) cs1) := by
  rw [getAt_bindGo, h]
  simp only [Option.map_some', bindGo]
  have e : ([] ∈ stripPath p targets) ↔ p ∈ targets := by
    rw [mem_stripPath]; simp
  by_cases hp : p ∈ targets
  · simp [hp, e.mpr hp]
  · have : [] ∉ stripPath p targets := fun hh => hp (e.mp hh)
    simp [hp, this]

theorem head_bindGo (b : Bound) (targets : JQ) (n : Node) :
    (bindGo b targets n).head = n.head := by
  cases n <;> simp [bindGo, Node.head]

theorem compound_test_head (c : Compound) (n1 n2 : Node) (h : n1.head = n2.head) :
    c.test n1 = c.test n2 := by
  cases n1 with
  | text s1 =>
    cases n2 with
    | text s2 => rfl
    | elem t2 a2 e2 c2 => simp [Node.head] at h
  | elem t1 a1 e1 c1 =>
    cases n2 with
    | text s2 => simp [Node.head] at h
    | elem t2 a2 e2 c2 =>
      simp only [Node.head, Option.some.injEq, Prod.mk.injEq] at h
      obtain ⟨rfl, rfl⟩ := h
      simp [Compound.test, Node.hasClass, Node.classList, Node.attr]

theorem selector_test_head (sel : Selector) : ∀ (anc1 anc2 : List Node) (n1 n2 : Node),
    anc1.map Node.head = anc2.map Node.head → n1.head = n2.head →
    sel.test anc1 n1 = sel.test anc2 n2 := by
  induction sel with
  | compound c =>
    intro anc1 anc2 n1 n2 _ hn
    simp only [Selector.test]
    exact compound_test_head c n1 n2 hn
  | child s c ih =>
    intro anc1 anc2 n1 n2 ha hn
    simp only [Selector.test]
    rw [compound_test_head c n1 n2 hn]
    cases anc1 with
    | nil =>
      cases anc2 with
      | nil => rfl
      | cons a2 r2 => simp at ha
    | cons a1 r1 =>
      cases anc2 with
      | nil => simp at ha
      | cons a2 r2 =>
        simp only [List.map_cons, List.cons.injEq] at ha
        simp only [ih r1 r2 a1 a2 ha.2 ha.1]
  | descendant s c ih =>
    intro anc1 anc2 n1 n2 ha hn
    simp only [Selector.test]
    rw [compound_test_head c n1 n2 hn]
    congr 1
    clear hn
    induction anc1 generalizing anc2 with
    | nil =>
      cases anc2 with
      | nil => rfl
      | cons a2 r2 => simp at ha
    | cons a1 r1 ih1 =>
      cases anc2 with
      | nil => simp at ha
      | cons a2 r2 =>
        simp only [List.map_cons, List.cons.injEq] at ha
        simp only [List.tails_cons, List.any_cons]
        rw [ih r1 r2 a1 a2 ha.2 ha.1, ih1 r2 ha.2]

theorem locate_bindGo (b : Bound) : ∀ (p : Path) (targets : JQ) (dom : Node)
    (anc1 anc2 : List Node), anc1.map Node.head = anc2.map Node.head →
    (locate anc1 (bindGo b targets dom) p).map (fun r => (r.1.map Node.head, r.2.head)) =
      (locate anc2 dom p).map (fun r => (r.1.map Node.head, r.2.head)) := by
  intro p
  induction p with
  | nil =>
    intro targets dom anc1 anc2 ha
    simp [locate, ha, head_bindGo]
  | cons i p ih =>
    intro targets dom anc1 anc2 ha
    cases dom with
    | text s => simp [bindGo, locate, Node.children]
    | elem t ats ev cs =>
      simp only [bindGo, locate, Node.children]
      rw [getElem?_bindList, Nat.zero_add]
      cases hc : cs[i]? with
      | none => simp
      | some c =>
        simp only [Option.map_some']
        apply ih (strip i targets) c
        simp [ha, Node.head]

theorem matchesAt_bindGo (b : Bound) (targets : JQ) (sel : Selector) (dom : Node) (p : Path) :
    matchesAt sel (bindGo b targets dom) p = matchesAt sel dom p := by
  unfold matchesAt
  have h := locate_bindGo b p targets dom [] [] rfl
  cases h1 : locate [] (bindGo b targets dom) p with
  | none =>
    cases h2 : locate [] dom p with
    | none => rfl
    | some r2 => simp [h1, h2] at h
  | some r1 =>
    cases h2 : locate [] dom p with
    | none => simp [h1, h2] at h
    | some r2 =>
      simp only [h1, h2, Option.map_some', Option.some.injEq, Prod.mk.injEq] at h
      exact selector_test_head sel r1.1 r2.1 r1.2 r2.2 h.1 h.2

mutual
theorem descendants_bindGo (b : Bound) : ∀ (targets : JQ) (n : Node),
    (bindGo b targets n).descendants = n.descendants
  | _, .text s => by simp [bindGo]
  | targets, .elem t ats ev cs => by
    simp only [bindGo, Node.descendants]
    exact descendantsFrom_bindList b targets 0 0 cs
theorem descendantsFrom_bindList (b : Bound) : ∀ (targets : JQ) (k i : Nat) (cs : List Node),
    descendantsFrom i (bindList b targets k cs) = descendantsFrom i cs
  | _, _, _, [] => by simp [bindList]
  | targets, k, i, c :: cs => by
    simp only [bindList, descendantsFrom]
    rw [descendants_bindGo b (strip k targets) c,
      descendantsFrom_bindList b targets (k + 1) (i + 1) cs]
end

theorem select_bindGo (b : Bound) (targets : JQ) (dom : Node) (sel : Selector) :
    select (bindGo b targets dom) sel = select dom sel := by
  unfold select allPaths
  rw [descendants_bindGo]
  congr 1
  funext p
  exact matchesAt_bindGo b targets sel dom p

theorem closestOne_bindGo (b : Bound) (targets : JQ) (sel : Selector) (dom : Node) :
    ∀ (fuel : Nat) (p : Path),
      closestOne sel (bindGo b targets dom) fuel p = closestOne sel dom fuel p := by
  intro fuel
  induction fuel with
  | zero => intro p; rfl
  | succ fuel ih =>
    intro p
    simp only [closestOne, matchesAt_bindGo, ih]

theorem attr_bindGo (b : Bound) (targets : JQ) (dom : Node) (set : JQ) (name : String) :
    attr (bindGo b targets dom) set name = attr dom set name := by
  cases set with
  | nil => rfl
  | cons p rest =>
    simp only [attr, getAt_bindGo]
    cases getAt dom p with
    | none => rfl
    | some n => cases n <;> simp [bindGo, Node.attr]

theorem testCaseClick_bindGo (b : Bound) (targets : JQ) (dom : Node) (p : Path) :
    testCaseClick (bindGo b targets dom) p = testCaseClick dom p := by
  unfold testCaseClick closest
  simp only [closestOne_bindGo, attr_bindGo]


/-! ## The ready wiring -/

theorem ready_live (dom : Node) : (ready dom).live = [articleTestButton] := rfl

theorem ready_dom (dom : Node) :
    (ready dom).dom =
      bindGo .autoFocusClick (select dom testinvalidSummary)
        (bindGo (.autoScrollClick failform) (select dom stepfailSummary)
          (bindGo .autoFocusClick (select dom stepfailSummary)
            (bindGo .ajaxError (select dom divRoleMain) dom))) := by
  simp only [ready, readyDetails, readyMain, testCaseButtons, autoFocus, autoScroll, bind,
    select_bindGo]

theorem events_ready (dom : Node) (q : Path) (t t0 : String) (ats ats0 : Attrs)
    (ev ev0 : List Bound) (cs cs0 : List Node)
    (h : getAt dom q = some (.elem t ats ev cs))
    (h0 : getAt (ready dom).dom q = some (.elem t0 ats0 ev0 cs0)) :
    t0 = t ∧ ats0 = ats ∧
      ev0 = ev ++ (if q ∈ select dom divRoleMain then [Bound.ajaxError] else [])
        ++ (if q ∈ select dom stepfailSummary then
              [Bound.autoFocusClick, Bound.autoScrollClick failform] else [])
        ++ (if q ∈ select dom testinvalidSummary then [Bound.autoFocusClick] else []) := by
  rw [ready_dom] at h0
  obtain ⟨c1, h1⟩ := getAt_bind_elem .ajaxError q (select dom divRoleMain) dom t ats ev cs h
  obtain ⟨c2, h2⟩ := getAt_bind_elem .autoFocusClick q (select dom stepfailSummary) _ t ats _ c1 h1
  obtain ⟨c3, h3⟩ := getAt_bind_elem (.autoScrollClick failform) q (select dom stepfailSummary)
    _ t ats _ c2 h2
  obtain ⟨c4, h4⟩ := getAt_bind_elem .autoFocusClick q (select dom testinvalidSummary)
    _ t ats _ c3 h3
  rw [h4] at h0
  simp only [Option.some.injEq, Node.elem.injEq] at h0
  obtain ⟨rfl, rfl, rfl, _⟩ := h0
  refine ⟨rfl, rfl, ?_⟩
  by_cases hm : q ∈ select dom divRoleMain <;>
    by_cases h1 : q ∈ select dom stepfailSummary <;>
    by_cases h2 : q ∈ select dom testinvalidSummary <;>
    simp [hm, h1, h2]

theorem tag_of_select (dom : Node) (sel : Selector) (t0 : String) (cl : List String)
    (as0 : List (String × String)) (q : Path) (hs : sel.subject = ⟨some t0, cl, as0⟩)
    (h : q ∈ select dom sel) :
    ∃ ats ev cs, getAt dom q = some (.elem t0 ats ev cs) := by
  obtain ⟨n, hn, ht⟩ := matchesAt_subject sel dom q ((mem_select dom sel q).mp h)
  rw [hs] at ht
  obtain ⟨ats, ev, cs, rfl⟩ := tag_of_test t0 cl as0 n ht
  exact ⟨ats, ev, cs, hn⟩

/-! ## The `ajaxError` event -/

theorem repeatFrag_length (frag : List Node) (n : Nat) :
    (repeatFrag frag n).length = n * frag.length := by
  induction n with
  | zero => simp [repeatFrag]
  | succ n ih => simp [repeatFrag, ih, Nat.succ_mul, Nat.add_comm]

theorem repeatFrag_comm (frag : List Node) (n : Nat) :
    repeatFrag frag n ++ frag = frag ++ repeatFrag frag n := by
  induction n with
  | zero => simp [repeatFrag]
  | succ n ih => simp [repeatFrag, List.append_assoc, ih]

theorem handler_runs (parse : String → List Html) (request : XHR) (t : String) (ats : Attrs)
    (ev : List Bound) : ∀ (l : List Bound) (cs : List Node),
    l.foldl (fun this _ => ajaxErrorHandler parse this request) (.elem t ats ev cs) =
      .elem t ats ev
        (repeatFrag (fragment parse
          ("<aside class=\"error\">" ++ request.responseText ++ "</aside>")) l.length ++ cs) := by
  intro l
  induction l with
  | nil => intro cs; simp [repeatFrag]
  | cons x l ih =>
    intro cs
    simp only [List.foldl_cons, List.length_cons, repeatFrag]
    have e : ajaxErrorHandler parse (.elem t ats ev cs) request =
        .elem t ats ev (fragment parse
          ("<aside class=\"error\">" ++ request.responseText ++ "</aside>") ++ cs) := rfl
    rw [e, ih]
    rw [← List.append_assoc, repeatFrag_comm]

theorem ajaxErrorEvent_elem (parse : String → List Html) (request : XHR) (t : String)
    (ats : Attrs) (ev : List Bound) (cs : List Node) :
    ajaxErrorEvent parse request (.elem t ats ev cs) =
      .elem t ats ev
        (repeatFrag (fragment parse
            ("<aside class=\"error\">" ++ request.responseText ++ "</aside>"))
          (ev.filter Bound.isAjaxError).length
          ++ ajaxErrorEventList parse request cs) := by
  simp only [ajaxErrorEvent]
  exact handler_runs parse request t ats ev _ _

theorem getElem?_ajaxErrorEventList (parse : String → List Html) (request : XHR) :
    ∀ (cs : List Node) (j : Nat),
      (ajaxErrorEventList parse request cs)[j]? =
        (cs[j]?).map (ajaxErrorEvent parse request)
  | [], _ => by simp [ajaxErrorEventList]
  | c :: cs, j => by
    simp only [ajaxErrorEventList]
    cases j with
    | zero => simp
    | succ j =>
      simp only [List.getElem?_cons_succ]
      exact getElem?_ajaxErrorEventList parse request cs j

mutual
theorem ajaxErrorEvent_unbound (parse : String → List Html) (request : XHR) :
    ∀ n : Node, n.unbound = true → ajaxErrorEvent parse request n = n
  | .text s, _ => by simp [ajaxErrorEvent]
  | .elem t ats ev cs, h => by
    simp only [Node.unbound, Bool.and_eq_true, List.isEmpty_iff] at h
    rw [ajaxErrorEvent_elem, h.1, ajaxErrorEventList_unbound parse request cs h.2]
    simp [repeatFrag]
theorem ajaxErrorEventList_unbound (parse : String → List Html) (request : XHR) :
    ∀ cs : List Node, unboundList cs = true → ajaxErrorEventList parse request cs = cs
  | [], _ => by simp [ajaxErrorEventList]
  | c :: cs, h => by
    simp only [unboundList, Bool.and_eq_true] at h
    simp only [ajaxErrorEventList]
    rw [ajaxErrorEvent_unbound parse request c h.1,
      ajaxErrorEventList_unbound parse request cs h.2]
end

theorem getAt_event_relocate (parse : String → List Html) (request : XHR) :
    ∀ (p : Path) (dom : Node),
      getAt (ajaxErrorEvent parse request dom)
          (relocate (fragment parse
            ("<aside class=\"error\">" ++ request.responseText ++ "</aside>")).length dom p) =
        (getAt dom p).map (ajaxErrorEvent parse request) := by
  intro p
  induction p with
  | nil => intro dom; cases dom <;> simp [relocate, getAt]
  | cons i p ih =>
    intro dom
    cases dom with
    | text s => simp [ajaxErrorEvent, relocate, getAt_text_cons]
    | elem t ats ev cs =>
      rw [ajaxErrorEvent_elem]
      simp only [relocate, getAt_elem_cons]
      rw [List.getElem?_append_right (by rw [repeatFrag_length]; omega)]
      have e : i + (ev.filter Bound.isAjaxError).length *
          (fragment parse ("<aside class=\"error\">" ++ request.responseText
            ++ "</aside>")).length
          - (repeatFrag (fragment parse ("<aside class=\"error\">" ++ request.responseText
            ++ "</aside>")) (ev.filter Bound.isAjaxError).length).length = i := by
        rw [repeatFrag_length]; omega
      rw [e, getElem?_ajaxErrorEventList]
      cases hc : cs[i]? with
      | none => simp
      | some c => simpa using ih c

/-! ## Event dispatch -/

theorem click_elem (live : List Selector) (dom : Node) (p : Path) (t : String) (ats : Attrs)
    (ev : List Bound) (cs : List Node) (h : getAt dom p = some (.elem t ats ev cs)) :
    click live dom p =
      ev.flatMap (fun b => b.run dom p)
        ++ (live.filter (fun sel => matchesAt sel dom p)).flatMap
          (fun _ => testCaseClick dom p) := by
  simp [click, h, Node.events]

theorem posts_autoFocusClick (dom : Node) (p : Path) : posts (autoFocusClick dom p) = [] := by
  unfold autoFocusClick posts
  split <;> simp

theorem posts_autoScrollClick (fc : Selector) (dom : Node) (p : Path) :
    posts (autoScrollClick fc dom p) = [] := by
  unfold autoScrollClick posts
  split <;> simp

theorem posts_append (a b : List Effect) : posts (a ++ b) = posts a ++ posts b := by
  simp [posts]

theorem posts_run (b : Bound) (dom : Node) (p : Path) : posts (b.run dom p) = [] := by
  cases b with
  | autoFocusClick => exact posts_autoFocusClick dom p
  | autoScrollClick fc => exact posts_autoScrollClick fc dom p
  | ajaxError => rfl

theorem posts_bound (ev : List Bound) (dom : Node) (p : Path) :
    posts (ev.flatMap (fun b => b.run dom p)) = [] := by
  induction ev with
  | nil => rfl
  | cons b ev ih =>
    simp only [List.flatMap_cons, posts_append, posts_run, ih, List.append_nil]

theorem posts_click (dom : Node) (p : Path) :
    posts (click [articleTestButton] dom p) =
      if matchesAt articleTestButton dom p = true then posts (testCaseClick dom p) else [] := by
  unfold click
  rw [posts_append]
  have h1 : posts (match getAt dom p with
      | some n => n.events.flatMap (fun b => b.run dom p)
      | none => []) = [] := by
    cases getAt dom p with
    | none => rfl
    | some n => exact posts_bound n.events dom p
  rw [h1]
  by_cases hm : matchesAt articleTestButton dom p = true
  · simp [hm]
  · simp [hm, posts]

theorem not_button_of_tag (dom : Node) (p : Path) (ats : Attrs) (ev : List Bound)
    (cs : List Node) (h : getAt dom p = some (.elem "summary" ats ev cs)) :
    matchesAt articleTestButton dom p = false := by
  cases hb : matchesAt articleTestButton dom p with
  | false => rfl
  | true =>
    exfalso
    obtain ⟨n2, hn2, hs2⟩ := matchesAt_subject articleTestButton dom p hb
    rw [h] at hn2
    simp only [Option.some.injEq] at hn2
    subst hn2
    obtain ⟨a2, e2, c2, e⟩ := tag_of_test _ _ _ _ hs2
    simp at e


theorem getAt_bindGo_inv (b : Bound) (p : Path) (targets : JQ) (dom : Node)
    (t : String) (ats : Attrs) (ev : List Bound) (cs : List Node)
    (h : getAt (bindGo b targets dom) p = some (.elem t ats ev cs)) :
    ∃ ev1 cs1, getAt dom p = some (.elem t ats ev1 cs1)
      ∧ ev = if p ∈ targets then ev1 ++ [b] else ev1 := by
  rw [getAt_bindGo] at h
  cases hn : getAt dom p with
  | none => simp [hn] at h
  | some n =>
    cases n with
    | text s => simp [hn, bindGo] at h
    | elem t1 a1 e1 c1 =>
      obtain ⟨c2, h2⟩ := getAt_bind_elem b p targets dom t1 a1 e1 c1 hn
      rw [getAt_bindGo] at h2
      rw [h2] at h
      simp only [Option.some.injEq, Node.elem.injEq] at h
      obtain ⟨rfl, rfl, rfl, _⟩ := h
      exact ⟨e1, c1, rfl, rfl⟩

theorem ready_inv (dom : Node) (q : Path) (t : String) (ats : Attrs) (ev : List Bound)
    (cs : List Node) (h : getAt (ready dom).dom q = some (.elem t ats ev cs)) :
    ∃ ev1 cs1, getAt dom q = some (.elem t ats ev1 cs1) := by
  rw [ready_dom] at h
  obtain ⟨e4, c4, h4, _⟩ := getAt_bindGo_inv _ q _ _ t ats ev cs h
  obtain ⟨e3, c3, h3, _⟩ := getAt_bindGo_inv _ q _ _ t ats e4 c4 h4
  obtain ⟨e2, c2, h2, _⟩ := getAt_bindGo_inv _ q _ _ t ats e3 c3 h3
  obtain ⟨e1, c1, h1, _⟩ := getAt_bindGo_inv _ q _ _ t ats e2 c2 h2
  exact ⟨e1, c1, h1⟩

theorem main_not_summary (dom : Node) (par : Selector) (q : Path)
    (h : q ∈ select dom divRoleMain) :
    q ∉ select dom (.child par ⟨some "summary", [], []⟩) := by
  intro h2
  obtain ⟨a1, e1, c1, g1⟩ := tag_of_select dom divRoleMain "div" [] [("role", "main")] q rfl h
  obtain ⟨a2, e2, c2, g2⟩ :=
    tag_of_select dom (.child par ⟨some "summary", [], []⟩) "summary" [] [] q rfl h2
  rw [g1] at g2
  simp at g2

theorem main_events (page : Html) (q : Path) (tag : String) (ats : Attrs) (ev : List Bound)
    (cs : List Node) (hq : q ∈ select page.toNode divRoleMain)
    (h0 : getAt (ready page.toNode).dom q = some (.elem tag ats ev cs)) :
    ev = [Bound.ajaxError] := by
  obtain ⟨e1, c1, h1⟩ := ready_inv _ q tag ats ev cs h0
  have he : e1 = [] := toNode_events page q _ h1
  subst he
  obtain ⟨_, _, h3⟩ := events_ready _ q tag tag ats ats [] ev c1 cs h1 h0
  have n1 : q ∉ select page.toNode stepfailSummary := main_not_summary _ _ q hq
  have n2 : q ∉ select page.toNode testinvalidSummary := main_not_summary _ _ q hq
  simpa [hq, n1, n2] using h3

theorem summary_events (page : Html) (q : Path) (tag : String) (ats : Attrs)
    (ev : List Bound) (cs : List Node)
    (hq : q ∈ select page.toNode stepfailSummary ∨ q ∈ select page.toNode testinvalidSummary)
    (h0 : getAt (ready page.toNode).dom q = some (.elem tag ats ev cs)) :
    tag = "summary" ∧
      ev = (if q ∈ select page.toNode stepfailSummary then
              [Bound.autoFocusClick, Bound.autoScrollClick failform] else [])
        ++ (if q ∈ select page.toNode testinvalidSummary then [Bound.autoFocusClick] else []) := by
  obtain ⟨e1, c1, h1⟩ := ready_inv _ q tag ats ev cs h0
  have he : e1 = [] := toNode_events page q _ h1
  subst he
  obtain ⟨_, _, h3⟩ := events_ready _ q tag tag ats ats [] ev c1 cs h1 h0
  have nm : q ∉ select page.toNode divRoleMain := by
    intro hm
    rcases hq with h | h
    · exact main_not_summary _ _ q hm h
    · exact main_not_summary _ _ q hm h
  have ht : tag = "summary" := by
    rcases hq with h | h
    · obtain ⟨a2, e2, c2, g2⟩ :=
        tag_of_select _ stepfailSummary "summary" [] [] q rfl h
      rw [h1] at g2
      simp only [Option.some.injEq, Node.elem.injEq] at g2
      exact g2.1
    · obtain ⟨a2, e2, c2, g2⟩ :=
        tag_of_select _ testinvalidSummary "summary" [] [] q rfl h
      rw [h1] at g2
      simp only [Option.some.injEq, Node.elem.injEq] at g2
      exact g2.1
  refine ⟨ht, ?_⟩
  simpa [nm] using h3

theorem bound_events (b : Bound) (trigger : Selector) (page : Html) (q : Path) (tag : String)
    (ats : Attrs) (ev : List Bound) (cs : List Node)
    (h0 : getAt (bindGo b (select page.toNode trigger) page.toNode) q
      = some (.elem tag ats ev cs)) :
    ev = if q ∈ select page.toNode trigger then [b] else [] := by
  obtain ⟨e1, c1, h1, h2⟩ := getAt_bindGo_inv b q _ _ tag ats ev cs h0
  have he : e1 = [] := toNode_events page q _ h1
  subst he
  simpa using h2

theorem failures_getAt (parse : String → List Html) (req : Request) (tag : String)
    (ats : Attrs) (ev : List Bound) (hev : (ev.filter Bound.isAjaxError).length = 1) :
    ∀ (rs : List String) (dom : Node) (p : Path) (c : List Node),
      getAt dom p = some (.elem tag ats ev c) → unboundList c = true →
      getAt (failures parse req rs (dom, p)).1 (failures parse req rs (dom, p)).2 =
        some (.elem tag ats ev
          (rs.reverse.flatMap
            (fun r => fragment parse ("<aside class=\"error\">" ++ r ++ "</aside>")) ++ c)) := by
  intro rs
  induction rs with
  | nil => intro dom p c h _; simpa [failures] using h
  | cons r rs ih =>
    intro dom p c h hu
    simp only [failures, List.reverse_cons, List.flatMap_append, List.flatMap_singleton,
      List.append_assoc]
    apply ih
    · have e : complete parse req (.error ⟨r⟩) dom = ajaxErrorEvent parse ⟨r⟩ dom := rfl
      rw [e]
      have hr := getAt_event_relocate parse ⟨r⟩ p dom
      simp only at hr
      rw [hr, h]
      simp only [Option.map_some', ajaxErrorEvent_elem, hev,
        ajaxErrorEventList_unbound parse ⟨r⟩ c hu]
      simp [repeatFrag, List.flatMap]
    · rw [unboundList_append]
      simp only [Bool.and_eq_true]
      exact ⟨toNodes_unbound _, hu⟩


/-! ## Properties of the script -/

/-- C1 (as stated, refuted): for the response body `a</aside><b>x</b><aside>y`
the handler bound to the `div[role=main]` of the sample page inserts three
nodes; the first is an `aside.error` whose content is `a`, not the response
body, and it is followed by a `b` and a second `aside` before the previous
content. -/
theorem banner_can_be_several_nodes :
    select samplePage.toNode divRoleMain = [[0]]
    ∧ fragment htmlParse "a</aside><b>x</b><aside>y" =
        [.text "a", .elem "b" [] [] [.text "x"], .elem "aside" [] [] [.text "y"]]
    ∧ getAt (complete htmlParse ⟨none, [], []⟩ (.error ⟨"a</aside><b>x</b><aside>y"⟩)
        readySample) [0] =
      some (.elem "div" [("role", "main")] [Bound.ajaxError]
        (.elem "aside" [("class", "error")] [] [.text "a"]
          :: .elem "b" [] [] [.text "x"]
          :: .elem "aside" [] [] [.text "y"]
          :: childrenAt readySample [0]))
    ∧ getAt (complete htmlParse ⟨none, [], []⟩ (.error ⟨"a</aside><b>x</b><aside>y"⟩)
        readySample) [0] ≠
      some (.elem "div" [("role", "main")] [Bound.ajaxError]
        (.elem "aside" [("class", "error")] []
            (fragment htmlParse "a</aside><b>x</b><aside>y")
          :: childrenAt readySample [0])) := by
  refine ⟨by rfl, by rfl, by rfl, ?_⟩
  intro h
  have h2 := congrArg (Option.map (fun n => (n.children).length)) h
  revert h2
  decide

/-- C1 (amended): when a request fails with response body `r`, the `ajaxError`
handler that document-ready bound to a `div[role=main]` runs on that element,
wherever it is in the document by then, and turns its content `c` into the
nodes created from the markup `<aside class="error">` + `r` + `</aside>`,
into which `r` enters raw, followed by `c`; `c` itself is kept, unchanged
when no element inside it carries the handler, and otherwise with the banners
that the bound elements inside it receive in the same event. -/
theorem ajaxError_prepends_banner (parse : String → List Html) (page : Html) (q : Path)
    (req : Request) (request : XHR) (dom : Node) (p : Path) (tag : String)
    (ats0 ats : Attrs) (ev : List Bound) (c0 c : List Node)
    (hq : q ∈ select page.toNode divRoleMain)
    (h0 : getAt (ready page.toNode).dom q = some (.elem tag ats0 ev c0))
    (hp : getAt dom p = some (.elem tag ats ev c)) :
    getAt (complete parse req (.error request) dom)
        (relocate (fragment parse
          ("<aside class=\"error\">" ++ request.responseText ++ "</aside>")).length dom p) =
      some (.elem tag ats ev
        (fragment parse ("<aside class=\"error\">" ++ request.responseText ++ "</aside>")
          ++ ajaxErrorEventList parse request c))
    ∧ (unboundList c = true → ajaxErrorEventList parse request c = c) := by
  have hev : ev = [Bound.ajaxError] := main_events page q tag ats0 ev c0 hq h0
  subst hev
  refine ⟨?_, ajaxErrorEventList_unbound parse request c⟩
  have e : complete parse req (.error request) dom = ajaxErrorEvent parse request dom := rfl
  rw [e, getAt_event_relocate, hp]
  simp [ajaxErrorEvent_elem, Bound.isAjaxError, repeatFrag]

theorem ajaxError_prepends_banner_witness :
    [0] ∈ select samplePage.toNode divRoleMain
    ∧ getAt readySample [0] =
        some (.elem "div" [("role", "main")] [Bound.ajaxError] (childrenAt readySample [0]))
    ∧ unboundList (childrenAt readySample [0]) = true
    ∧ getAt (complete htmlParse ⟨none, [], []⟩ (.error ⟨"boom"⟩) readySample) [0] =
        some (.elem "div" [("role", "main")] [Bound.ajaxError]
          (.elem "aside" [("class", "error")] [] [.text "boom"]
            :: ajaxErrorEventList htmlParse ⟨"boom"⟩ (childrenAt readySample [0])))
    ∧ ajaxErrorEventList htmlParse ⟨"boom"⟩ (childrenAt readySample [0])
        = childrenAt readySample [0] :=
  ⟨by decide, by rfl, by rfl,
   (ajaxError_prepends_banner htmlParse samplePage [0] ⟨none, [], []⟩ ⟨"boom"⟩ readySample [0]
      "div" [("role", "main")] [("role", "main")] [Bound.ajaxError]
      (childrenAt readySample [0]) (childrenAt readySample [0]) (by decide) (by rfl) (by rfl)).1,
   (ajaxError_prepends_banner htmlParse samplePage [0] ⟨none, [], []⟩ ⟨"boom"⟩ readySample [0]
      "div" [("role", "main")] [("role", "main")] [Bound.ajaxError]
      (childrenAt readySample [0]) (childrenAt readySample [0]) (by decide) (by rfl) (by rfl)).2
      (by rfl)⟩

/-- C2: a click on a button inside an `article.test` (an element matching
`article.test button` in the document at click time) issues exactly one POST.
Its URL is the `data-action-url` attribute of the nearest enclosing
`article.test` `t` (no `article.test` lies strictly between `t` and the button)
and its data is the single field `action` holding the button's `data-action`
attribute; both are values read from the document at click time, and the
success callback captures `t`. -/
theorem click_issues_one_post (dom0 dom : Node) (b : Path)
    (h : matchesAt articleTestButton dom b = true) :
    ∃ t, t <+: b ∧ t ≠ b ∧ matchesAt articleTest dom t = true
      ∧ (∀ q, t <+: q → q <+: b → q ≠ t → matchesAt articleTest dom q = false)
      ∧ posts (click (ready dom0).live dom b) =
          [⟨(getAt dom t).bind (fun n => n.attr "data-action-url"),
            [("action", (getAt dom b).bind (fun n => n.attr "data-action"))],
            [t]⟩] := by
  obtain ⟨q0, hq0, _, hm0⟩ := matchesAt_articleTestButton dom b h
  obtain ⟨t, ht⟩ := closestOne_complete articleTest dom (b.length + 1) b q0 (by omega) hq0 hm0
  obtain ⟨h1, h2, h3⟩ := closestOne_spec articleTest dom (b.length + 1) b t ht
  refine ⟨t, h1, ?_, h2, h3, ?_⟩
  · intro e
    subst e
    obtain ⟨n, hn, hs⟩ := matchesAt_subject articleTest dom t h2
    obtain ⟨n2, hn2, hs2⟩ := matchesAt_subject articleTestButton dom t h
    rw [hn] at hn2
    simp only [Option.some.injEq] at hn2
    subst hn2
    obtain ⟨a1, v1, c1, e1⟩ := tag_of_test _ _ _ n hs
    obtain ⟨a2, v2, c2, e2⟩ := tag_of_test _ _ _ n hs2
    rw [e1] at e2
    simp at e2
  · rw [ready_live, posts_click]
    simp [h, testCaseClick, posts, closest, ht, attr]

theorem click_issues_one_post_witness :
    matchesAt articleTestButton readySample [0, 0, 1] = true
    ∧ (∃ t, t <+: [0, 0, 1] ∧ t ≠ [0, 0, 1] ∧ matchesAt articleTest readySample t = true
      ∧ (∀ q, t <+: q → q <+: [0, 0, 1] → q ≠ t → matchesAt articleTest readySample q = false)
      ∧ posts (click (ready samplePage.toNode).live readySample [0, 0, 1]) =
          [⟨(getAt readySample t).bind (fun n => n.attr "data-action-url"),
            [("action", (getAt readySample [0, 0, 1]).bind (fun n => n.attr "data-action"))],
            [t]⟩])
    ∧ posts (click (ready samplePage.toNode).live readySample [0, 0, 1]) =
        [⟨some "/run/1/", [("action", some "pass")], [[0, 0]]⟩] :=
  ⟨by rfl, click_issues_one_post samplePage.toNode readySample [0, 0, 1] (by rfl), by rfl⟩

/-- C3: the success callback of a POST whose click captured the test case `t`,
run with response body `d`, turns the document into the one where the subtree
at `t` has every descendant matching `.status` replaced by the nodes created
from `d` and every other node kept (`swapStatus`), nothing outside `t`
changing; when no descendant of `t` matches `.status` the document is left as
it is. -/
theorem success_replaces_status (parse : String → List Html)
    (url : Option String) (data : List (String × Option String)) (t : Path) (d : String)
    (dom : Node) :
    complete parse ⟨url, data, [t]⟩ (.success d) dom =
        updateAt t (swapStatus (fragment parse d)) dom
    ∧ getAt (complete parse ⟨url, data, [t]⟩ (.success d) dom) t =
        (getAt dom t).map (swapStatus (fragment parse d))
    ∧ ((∀ q m, q ≠ [] → getAt dom (t ++ q) = some m → m.hasClass "status" = false) →
        complete parse ⟨url, data, [t]⟩ (.success d) dom = dom) := by
  have e : complete parse ⟨url, data, [t]⟩ (.success d) dom =
      successCallback parse [t] d dom := rfl
  refine ⟨?_, ?_, ?_⟩
  · rw [e, successCallback_eq]
  · rw [e, successCallback_eq, getAt_updateAt_self]
  · intro hno
    rw [e]
    unfold successCallback replaceWith
    have hf : find dom statusSel [t] = [] := by
      rw [find_single]
      cases hn : getAt dom t with
      | none => rfl
      | some n =>
        simp only []
        apply List.filter_eq_nil_iff.mpr
        intro p hp
        rcases List.mem_map.mp hp with ⟨q, hq, rfl⟩
        have hq2 := (mem_descendants n q).mp hq
        rw [matchesAt_status]
        cases hm : getAt dom (t ++ q) with
        | none => simp
        | some m => simp [hno q m hq2.1 hm]
    rw [hf, replaceGo_nil]

theorem success_replaces_status_witness :
    (∀ q m, q ≠ [] → getAt readySample ([0, 0, 1] ++ q) = some m →
      m.hasClass "status" = false)
    ∧ complete textParse ⟨none, [], [[0, 0, 1]]⟩ (.success "passed") readySample = readySample
    ∧ getAt (complete textParse ⟨some "/run/1/", [], [[0, 0]]⟩
        (.success "passed") readySample) [0, 0, 0] = some (.text "passed") := by
  have hno : ∀ q m, q ≠ [] → getAt readySample ([0, 0, 1] ++ q) = some m →
      m.hasClass "status" = false := by
    intro q m hq hm
    cases q with
    | nil => exact absurd rfl hq
    | cons i q =>
      cases i with
      | zero =>
        cases q with
        | nil =>
          have : m = .text "Pass" := by
            have h2 : getAt readySample [0, 0, 1, 0] = some (.text "Pass") := rfl
            have h3 : getAt readySample ([0, 0, 1] ++ [0]) = some m := hm
            rw [show ([0, 0, 1] ++ [0] : Path) = [0, 0, 1, 0] from rfl, h2] at h3
            exact (Option.some.inj h3).symm
          rw [this]; rfl
        | cons j q =>
          have h3 : getAt readySample ([0, 0, 1, 0] ++ (j :: q)) = some m := hm
          rw [getAt_append] at h3
          have h2 : getAt readySample [0, 0, 1, 0] = some (.text "Pass") := rfl
          rw [h2] at h3
          simp [getAt_text_cons] at h3
      | succ i =>
        have h3 : getAt readySample ([0, 0, 1] ++ ((i + 1) :: q)) = some m := hm
        rw [getAt_append] at h3
        have h2 : getAt readySample [0, 0, 1] =
            some (.elem "button" [("data-action", "pass")] [] [.text "Pass"]) := rfl
        rw [h2] at h3
        simp [getAt_elem_cons] at h3
  exact ⟨hno,
    (success_replaces_status textParse none [] [0, 0, 1] "passed" readySample).2.2 hno,
    by rfl⟩


/-- C4 (as stated, refuted): on a page whose `div[role=main]` lies inside the
test case, a failed POST changes the content of the clicked test case: the
banner is inserted inside it. -/
theorem failure_changes_test_case_around_main :
    posts (click (ready mainInsidePage.toNode).live (ready mainInsidePage.toNode).dom [0, 0, 0])
        = [⟨some "/run/1/", [("action", some "pass")], [[0]]⟩]
    ∧ select mainInsidePage.toNode divRoleMain = [[0, 0]]
    ∧ getAt (complete textParse ⟨some "/run/1/", [("action", some "pass")], [[0]]⟩
          (.error ⟨"boom"⟩) (ready mainInsidePage.toNode).dom) [0]
        = some (.elem "article" [("class", "test"), ("data-action-url", "/run/1/")] []
            [.elem "div" [("role", "main")] [Bound.ajaxError]
              [.text "<aside class=\"error\">boom</aside>",
               .elem "button" [("data-action", "pass")] [] [.text "Pass"],
               .elem "p" [("class", "status")] [] [.text "new"]]])
    ∧ getAt (complete textParse ⟨some "/run/1/", [("action", some "pass")], [[0]]⟩
          (.error ⟨"boom"⟩) (ready mainInsidePage.toNode).dom) [0]
        ≠ getAt (ready mainInsidePage.toNode).dom [0] := by
  refine ⟨by rfl, by rfl, by rfl, ?_⟩
  intro h
  have h2 := congrArg (Option.map (fun n => (n.descendants).length)) h
  revert h2
  decide

/-- C4 (amended): when a POST issued by `testCaseButtons` fails, the success
callback is not run and the document changes only by the `ajaxError` event:
every `div[role=main]` that document-ready bound the handler to receives the
error banner as its first children. Any node `n` with no bound element at or
below it, in particular a clicked test case that does not contain the
`div[role=main]`, is the same after the failure as before, at the position
it has moved to because of the inserted banners. -/
theorem failure_only_prepends_banner (parse : String → List Html) (page : Html) (q : Path)
    (req : Request) (request : XHR) (dom : Node) (m : Path) (tag : String)
    (ats0 ats : Attrs) (ev : List Bound) (c0 c : List Node) (t : Path) (n : Node) :
    complete parse req (.error request) dom = ajaxErrorEvent parse request dom
    ∧ (q ∈ select page.toNode divRoleMain →
        getAt (ready page.toNode).dom q = some (.elem tag ats0 ev c0) →
        getAt dom m = some (.elem tag ats ev c) →
        getAt (complete parse req (.error request) dom)
          (relocate (fragment parse
            ("<aside class=\"error\">" ++ request.responseText ++ "</aside>")).length dom m) =
        some (.elem tag ats ev
          (fragment parse ("<aside class=\"error\">" ++ request.responseText ++ "</aside>")
            ++ ajaxErrorEventList parse request c)))
    ∧ (getAt dom t = some n → n.unbound = true →
        getAt (complete parse req (.error request) dom)
          (relocate (fragment parse
            ("<aside class=\"error\">" ++ request.responseText ++ "</aside>")).length dom t) =
        some n) := by
  have e : complete parse req (.error request) dom = ajaxErrorEvent parse request dom := rfl
  refine ⟨rfl, ?_, ?_⟩
  · intro hq h0 hm
    have hev : ev = [Bound.ajaxError] := main_events page q tag ats0 ev c0 hq h0
    subst hev
    rw [e, getAt_event_relocate, hm]
    simp [ajaxErrorEvent_elem, Bound.isAjaxError, repeatFrag]
  · intro hn hu
    rw [e, getAt_event_relocate, hn]
    simp [ajaxErrorEvent_unbound parse request n hu]

theorem failure_only_prepends_banner_witness :
    [0] ∈ select samplePage.toNode divRoleMain
    ∧ getAt readySample [0] =
        some (.elem "div" [("role", "main")] [Bound.ajaxError] (childrenAt readySample [0]))
    ∧ getAt (complete textParse ⟨some "/run/1/", [("action", some "pass")], [[0, 0]]⟩
        (.error ⟨"boom"⟩) readySample) [0] =
      some (.elem "div" [("role", "main")] [Bound.ajaxError]
        (.text "<aside class=\"error\">boom</aside>"
          :: ajaxErrorEventList textParse ⟨"boom"⟩ (childrenAt readySample [0])))
    ∧ getAt readySample [0, 0] = some (nodeAt readySample [0, 0])
    ∧ (nodeAt readySample [0, 0]).unbound = true
    ∧ getAt (complete textParse ⟨some "/run/1/", [("action", some "pass")], [[0, 0]]⟩
        (.error ⟨"boom"⟩) readySample) [0, 1] = some (nodeAt readySample [0, 0]) :=
  ⟨by decide, by rfl,
   (failure_only_prepends_banner textParse samplePage [0]
      ⟨some "/run/1/", [("action", some "pass")], [[0, 0]]⟩ ⟨"boom"⟩ readySample [0]
      "div" [("role", "main")] [("role", "main")] [Bound.ajaxError]
      (childrenAt readySample [0]) (childrenAt readySample [0]) [0, 0]
      (nodeAt readySample [0, 0])).2.1 (by decide) (by rfl) (by rfl),
   by rfl, by rfl,
   (failure_only_prepends_banner textParse samplePage [0]
      ⟨some "/run/1/", [("action", some "pass")], [[0, 0]]⟩ ⟨"boom"⟩ readySample [0]
      "div" [("role", "main")] [("role", "main")] [Bound.ajaxError]
      (childrenAt readySample [0]) (childrenAt readySample [0]) [0, 0]
      (nodeAt readySample [0, 0])).2.2 (by rfl) (by rfl)⟩

/-- C5: for an element that is at `q` when `autoFocus(trigger)` is called on
the loaded page, and is found at `p` in the document at the time of a click
(same element object: same tag, same bound handlers), the click asks for focus
on the `textarea` descendants of its parent exactly when the element was
matched by the trigger selector and the parent has the class `open` in the
document at the time of the click; otherwise the click has no effect, so it
changes no focus. -/
theorem autoFocus_click (trigger : Selector) (page : Html) (q : Path) (dom : Node) (p : Path)
    (tag : String) (ats0 ats : Attrs) (ev : List Bound) (c0 c : List Node)
    (h0 : getAt (autoFocus trigger page.toNode) q = some (.elem tag ats0 ev c0))
    (hp : getAt dom p = some (.elem tag ats ev c)) :
    click [] dom p =
        (if q ∈ select page.toNode trigger ∧ hasClass dom (parent dom [p]) "open" = true then
          [Effect.focus (find dom textareaSel (parent dom [p]))]
        else [])
    ∧ ((∃ ts, Effect.focus ts ∈ click [] dom p) ↔
        (q ∈ select page.toNode trigger ∧ hasClass dom (parent dom [p]) "open" = true)) := by
  have hev : ev = if q ∈ select page.toNode trigger then [Bound.autoFocusClick] else [] :=
    bound_events _ trigger page q tag ats0 ev c0 h0
  rw [click_elem [] dom p tag ats ev c hp, hev]
  by_cases hq : q ∈ select page.toNode trigger
  · by_cases ho : hasClass dom (parent dom [p]) "open" = true
    · simp [hq, ho, Bound.run, autoFocusClick]
    · simp [hq, ho, Bound.run, autoFocusClick]
  · simp [hq]

/-- C6: for an element that is at `q` when `autoScroll(trigger, formcontainer)`
is called on the loaded page, and is found at `p` in the document at the time
of a click (same element object: same tag, same bound handlers), the click
requests a scroll, with duration 750, to the siblings of the element that
match `formcontainer` exactly when the element was matched by the trigger
selector and its parent has the class `open` in the document at the time of
the click; otherwise no scroll is requested. -/
theorem autoScroll_click (trigger formcontainer : Selector) (page : Html) (q : Path)
    (dom : Node) (p : Path) (tag : String) (ats0 ats : Attrs) (ev : List Bound)
    (c0 c : List Node)
    (h0 : getAt (autoScroll trigger formcontainer page.toNode) q =
      some (.elem tag ats0 ev c0))
    (hp : getAt dom p = some (.elem tag ats ev c)) :
    click [] dom p =
        (if q ∈ select page.toNode trigger ∧ hasClass dom (parent dom [p]) "open" = true then
          [Effect.scrollTo (siblings dom formcontainer [p]) 750]
        else [])
    ∧ ((∃ ts d, Effect.scrollTo ts d ∈ click [] dom p) ↔
        (q ∈ select page.toNode trigger ∧ hasClass dom (parent dom [p]) "open" = true)) := by
  have hev : ev = if q ∈ select page.toNode trigger then
      [Bound.autoScrollClick formcontainer] else [] :=
    bound_events _ trigger page q tag ats0 ev c0 h0
  rw [click_elem [] dom p tag ats ev c hp, hev]
  by_cases hq : q ∈ select page.toNode trigger
  · by_cases ho : hasClass dom (parent dom [p]) "open" = true
    · simp [hq, ho, Bound.run, autoScrollClick]
    · simp [hq, ho, Bound.run, autoScrollClick]
  · simp [hq]

theorem autoFocus_click_witness :
    getAt focusSample [0, 0, 2, 0] =
      some (.elem "summary" [] [Bound.autoFocusClick] [.text "Fail step"])
    ∧ getAt focusSampleLater [0, 1, 2, 0] =
      some (.elem "summary" [] [Bound.autoFocusClick] [.text "Fail step"])
    ∧ click [] focusSampleLater [0, 1, 2, 0] = [Effect.focus [[0, 1, 2, 1, 0]]]
    ∧ getAt focusSample [0, 1, 2, 0] = some (.elem "summary" [] [] [.text "Invalid"])
    ∧ getAt focusSampleLater [0, 2, 2, 0] = some (.elem "summary" [] [] [.text "Invalid"])
    ∧ click [] focusSampleLater [0, 2, 2, 0] = [] :=
  ⟨by rfl, by rfl,
   (autoFocus_click stepfailSummary samplePage [0, 0, 2, 0] focusSampleLater [0, 1, 2, 0]
      "summary" [] [] [Bound.autoFocusClick] [.text "Fail step"] [.text "Fail step"]
      (by rfl) (by rfl)).1,
   by rfl, by rfl,
   (autoFocus_click stepfailSummary samplePage [0, 1, 2, 0] focusSampleLater [0, 2, 2, 0]
      "summary" [] [] [] [.text "Invalid"] [.text "Invalid"] (by rfl) (by rfl)).1⟩

theorem autoScroll_click_witness :
    getAt scrollSample [0, 0, 2, 0] =
      some (.elem "summary" [] [Bound.autoScrollClick failform] [.text "Fail step"])
    ∧ getAt scrollSampleLater [0, 1, 2, 0] =
      some (.elem "summary" [] [Bound.autoScrollClick failform] [.text "Fail step"])
    ∧ click [] scrollSampleLater [0, 1, 2, 0] = [Effect.scrollTo [[0, 1, 2, 1]] 750]
    ∧ getAt scrollSample [0, 1, 2, 0] = some (.elem "summary" [] [] [.text "Invalid"])
    ∧ getAt scrollSampleLater [0, 2, 2, 0] = some (.elem "summary" [] [] [.text "Invalid"])
    ∧ click [] scrollSampleLater [0, 2, 2, 0] = [] :=
  ⟨by rfl, by rfl,
   (autoScroll_click stepfailSummary failform samplePage [0, 0, 2, 0] scrollSampleLater
      [0, 1, 2, 0] "summary" [] [] [Bound.autoScrollClick failform] [.text "Fail step"]
      [.text "Fail step"] (by rfl) (by rfl)).1,
   by rfl, by rfl,
   (autoScroll_click stepfailSummary failform samplePage [0, 1, 2, 0] scrollSampleLater
      [0, 2, 2, 0] "summary" [] [] [] [.text "Invalid"] [.text "Invalid"]
      (by rfl) (by rfl)).1⟩

/-- C7 (as stated, refuted), two cases. A `summary` whose parent `details`
carries both `stepfail` and `testinvalid` matches
`details.testinvalid > summary`, has an open parent, and a click on it
requests a scroll. A `details.stepfail > summary` that a response fragment
brought into the page after document-ready has an open parent, and a click on
it neither focuses nor scrolls. -/
theorem summary_click_refuted :
    ([0, 0] ∈ select bothClassesPage.toNode testinvalidSummary
      ∧ hasClass (ready bothClassesPage.toNode).dom
          (parent (ready bothClassesPage.toNode).dom [[0, 0]]) "open" = true
      ∧ click (ready bothClassesPage.toNode).live (ready bothClassesPage.toNode).dom [0, 0] =
          [Effect.focus [[0, 1, 0]], Effect.scrollTo [[0, 1]] 750, Effect.focus [[0, 1, 0]]])
    ∧ (matchesAt stepfailSummary insertedSample [0, 0, 0, 0] = true
      ∧ hasClass insertedSample (parent insertedSample [[0, 0, 0, 0]]) "open" = true
      ∧ find insertedSample textareaSel (parent insertedSample [[0, 0, 0, 0]])
          = [[0, 0, 0, 1, 0]]
      ∧ siblings insertedSample failform [[0, 0, 0, 0]] = [[0, 0, 0, 1]]
      ∧ click (ready samplePage.toNode).live insertedSample [0, 0, 0, 0] = []) := by
  decide

/-- C7 (amended): after the document-ready wiring, for a summary that was at
`q` when the document became ready and is at `p` when it is clicked (same
element object: same tag, same bound handlers) and whose parent is open at
the time of the click: if it matched `details.stepfail > summary` at
document-ready, the click focuses the parent's `textarea` descendants and
scrolls to the siblings matching `.failform` with duration 750; if it matched
`details.testinvalid > summary` but not `details.stepfail > summary` at
document-ready, the click only focuses the parent's `textarea` descendants
and requests no scroll. -/
theorem ready_click_summary (page : Html) (q : Path) (dom : Node) (p : Path)
    (tag : String) (ats0 ats : Attrs) (ev : List Bound) (c0 c : List Node)
    (h0 : getAt (ready page.toNode).dom q = some (.elem tag ats0 ev c0))
    (hp : getAt dom p = some (.elem tag ats ev c))
    (hopen : hasClass dom (parent dom [p]) "open" = true) :
    (q ∈ select page.toNode stepfailSummary →
      click (ready page.toNode).live dom p =
        [Effect.focus (find dom textareaSel (parent dom [p])),
         Effect.scrollTo (siblings dom failform [p]) 750]
        ++ (if q ∈ select page.toNode testinvalidSummary then
              [Effect.focus (find dom textareaSel (parent dom [p]))]
            else []))
    ∧ (q ∈ select page.toNode testinvalidSummary → q ∉ select page.toNode stepfailSummary →
        click (ready page.toNode).live dom p =
          [Effect.focus (find dom textareaSel (parent dom [p]))]
        ∧ ∀ ts d, Effect.scrollTo ts d ∉ click (ready page.toNode).live dom p) := by
  constructor
  · intro h1
    obtain ⟨ht, hev⟩ := summary_events page q tag ats0 ev c0 (Or.inl h1) h0
    subst ht
    rw [click_elem _ dom p "summary" ats ev c hp, ready_live, hev]
    have hnb := not_button_of_tag dom p ats ev c hp
    by_cases h2 : q ∈ select page.toNode testinvalidSummary <;>
      simp [h1, h2, hnb, Bound.run, autoFocusClick, autoScrollClick, hopen]
  · intro h2 h1
    obtain ⟨ht, hev⟩ := summary_events page q tag ats0 ev c0 (Or.inr h2) h0
    subst ht
    have hnb := not_button_of_tag dom p ats ev c hp
    have e : click (ready page.toNode).live dom p =
        [Effect.focus (find dom textareaSel (parent dom [p]))] := by
      rw [click_elem _ dom p "summary" ats ev c hp, ready_live, hev]
      simp [h1, h2, hnb, Bound.run, autoFocusClick, hopen]
    refine ⟨e, ?_⟩
    intro ts d hmem
    rw [e] at hmem
    simp at hmem

theorem ready_click_summary_witness :
    hasClass failedSample (parent failedSample [[0, 1, 2, 0]]) "open" = true
    ∧ [0, 0, 2, 0] ∈ select samplePage.toNode stepfailSummary
    ∧ click (ready samplePage.toNode).live failedSample [0, 1, 2, 0] =
        [Effect.focus [[0, 1, 2, 1, 0]], Effect.scrollTo [[0, 1, 2, 1]] 750]
    ∧ hasClass failedSample (parent failedSample [[0, 2, 2, 0]]) "open" = true
    ∧ [0, 1, 2, 0] ∈ select samplePage.toNode testinvalidSummary
    ∧ [0, 1, 2, 0] ∉ select samplePage.toNode stepfailSummary
    ∧ click (ready samplePage.toNode).live failedSample [0, 2, 2, 0] =
        [Effect.focus [[0, 2, 2, 1]]]
    ∧ (∀ ts d, Effect.scrollTo ts d ∉
        click (ready samplePage.toNode).live failedSample [0, 2, 2, 0]) :=
  ⟨by decide, by decide,
   (ready_click_summary samplePage [0, 0, 2, 0] failedSample [0, 1, 2, 0] "summary" [] []
      [Bound.autoFocusClick, Bound.autoScrollClick failform] [.text "Fail step"]
      [.text "Fail step"] (by rfl) (by rfl) (by decide)).1 (by decide),
   by decide, by decide, by decide,
   ((ready_click_summary samplePage [0, 1, 2, 0] failedSample [0, 2, 2, 0] "summary" [] []
      [Bound.autoFocusClick] [.text "Invalid"] [.text "Invalid"] (by rfl) (by rfl)
      (by decide)).2 (by decide) (by decide)).1,
   ((ready_click_summary samplePage [0, 1, 2, 0] failedSample [0, 2, 2, 0] "summary" [] []
      [Bound.autoFocusClick] [.text "Invalid"] [.text "Invalid"] (by rfl) (by rfl)
      (by decide)).2 (by decide) (by decide)).2⟩

/-- C8: the success callback of a POST changes only the test case captured at
click time. For two pending requests whose test cases `t1` and `t2` are
distinct and not nested (neither path leads through the other), each callback
leaves the other test case as it was, and applying the two successful
responses in either order gives the same document. -/
theorem success_callbacks_commute (parse : String → List Html)
    (u1 u2 : Option String) (a1 a2 : List (String × Option String))
    (t1 t2 : Path) (d1 d2 : String) (dom : Node)
    (h12 : ¬ t1 <+: t2) (h21 : ¬ t2 <+: t1) :
    complete parse ⟨u1, a1, [t1]⟩ (.success d1)
        (complete parse ⟨u2, a2, [t2]⟩ (.success d2) dom)
      = complete parse ⟨u2, a2, [t2]⟩ (.success d2)
        (complete parse ⟨u1, a1, [t1]⟩ (.success d1) dom)
    ∧ getAt (complete parse ⟨u1, a1, [t1]⟩ (.success d1) dom) t2 = getAt dom t2
    ∧ getAt (complete parse ⟨u2, a2, [t2]⟩ (.success d2) dom) t1 = getAt dom t1 := by
  have e : ∀ (u : Option String) (a : List (String × Option String)) (t : Path) (d : String)
      (x : Node), complete parse ⟨u, a, [t]⟩ (.success d) x =
        updateAt t (swapStatus (fragment parse d)) x := by
    intro u a t d x
    exact successCallback_eq parse t d x
  simp only [e]
  exact ⟨updateAt_comm t1 t2 _ _ dom h12 h21,
    getAt_updateAt_other t1 t2 _ dom h12 h21,
    getAt_updateAt_other t2 t1 _ dom h21 h12⟩

theorem success_callbacks_commute_witness :
    ¬ ([0, 0] : Path) <+: [0, 1] ∧ ¬ ([0, 1] : Path) <+: [0, 0]
    ∧ complete textParse ⟨some "/run/1/", [("action", some "pass")], [[0, 0]]⟩
        (.success "passed")
        (complete textParse
          ⟨some "/run/2/", [("action", some "fail")], [[0, 1]]⟩ (.success "failed") readySample)
      = complete textParse
          ⟨some "/run/2/", [("action", some "fail")], [[0, 1]]⟩ (.success "failed")
        (complete textParse
          ⟨some "/run/1/", [("action", some "pass")], [[0, 0]]⟩ (.success "passed") readySample) :=
  ⟨by decide, by decide,
   (success_callbacks_commute textParse (some "/run/1/") (some "/run/2/")
      [("action", some "pass")] [("action", some "fail")] [0, 0] [0, 1] "passed" "failed"
      readySample (by decide) (by decide)).1⟩

/-- C9 (as stated, refuted), two cases. On a page with one `div[role=main]`
inside another, after one failed request the outer one starts with the banner
but what follows is not its original content: the inner one has received a
banner too. On the sample page, after one failed request whose body closes
the `aside`, the `div[role=main]` starts with three nodes, not with one
`aside.error` banner followed by its original content. -/
theorem banners_then_original_refuted :
    (select nestedMainPage.toNode divRoleMain = [[0], [0, 0]]
      ∧ getAt (ready nestedMainPage.toNode).dom [0] =
          some (.elem "div" [("role", "main")] [Bound.ajaxError]
            [.elem "div" [("role", "main")] [Bound.ajaxError]
               [.elem "p" [] [] [.text "inner"]],
             .elem "p" [] [] [.text "outer"]])
      ∧ getAt (complete htmlParse ⟨none, [], []⟩ (.error ⟨"boom"⟩)
            (ready nestedMainPage.toNode).dom) [0] =
          some (.elem "div" [("role", "main")] [Bound.ajaxError]
            [.elem "aside" [("class", "error")] [] [.text "boom"],
             .elem "div" [("role", "main")] [Bound.ajaxError]
               [.elem "aside" [("class", "error")] [] [.text "boom"],
                .elem "p" [] [] [.text "inner"]],
             .elem "p" [] [] [.text "outer"]]))
    ∧ (getAt (complete htmlParse ⟨none, [], []⟩ (.error ⟨"a</aside><b>x</b><aside>y"⟩)
          readySample) [0] =
        some (.elem "div" [("role", "main")] [Bound.ajaxError]
          (.elem "aside" [("class", "error")] [] [.text "a"]
            :: .elem "b" [] [] [.text "x"]
            :: .elem "aside" [] [] [.text "y"]
            :: childrenAt readySample [0]))) := by
  refine ⟨⟨by rfl, by rfl, by rfl⟩, by rfl⟩

/-- C9 (amended): the `ajaxError` handler only adds nodes. For a
`div[role=main]` that document-ready bound the handler to and that has no
other bound element inside it, after failed requests with bodies `r1 .. rn`,
in this order, its content is the nodes created from the `n` banner markups
`<aside class="error">` + `ri` + `</aside>` in reverse order of failure (that
of `rn` first, that of `r1` last), followed by its original content `c`; the
element is found at the position the inserted banners have moved it to. -/
theorem banners_accumulate (parse : String → List Html) (page : Html) (q : Path)
    (req : Request) (rs : List String) (dom : Node) (p : Path) (tag : String)
    (ats0 ats : Attrs) (ev : List Bound) (c0 c : List Node)
    (hq : q ∈ select page.toNode divRoleMain)
    (h0 : getAt (ready page.toNode).dom q = some (.elem tag ats0 ev c0))
    (hp : getAt dom p = some (.elem tag ats ev c))
    (hin : unboundList c = true) :
    getAt (failures parse req rs (dom, p)).1 (failures parse req rs (dom, p)).2 =
      some (.elem tag ats ev
        (rs.reverse.flatMap
          (fun r => fragment parse ("<aside class=\"error\">" ++ r ++ "</aside>")) ++ c)) := by
  have hev : ev = [Bound.ajaxError] := main_events page q tag ats0 ev c0 hq h0
  subst hev
  exact failures_getAt parse req tag ats [Bound.ajaxError] (by rfl) rs dom p c hp hin

theorem banners_accumulate_witness :
    [0] ∈ select samplePage.toNode divRoleMain
    ∧ getAt readySample [0] =
        some (.elem "div" [("role", "main")] [Bound.ajaxError] (childrenAt readySample [0]))
    ∧ unboundList (childrenAt readySample [0]) = true
    ∧ getAt (failures htmlParse ⟨none, [], []⟩ ["one", "two"] (readySample, [0])).1 [0] =
        some (.elem "div" [("role", "main")] [Bound.ajaxError]
          (.elem "aside" [("class", "error")] [] [.text "two"]
            :: .elem "aside" [("class", "error")] [] [.text "one"]
            :: childrenAt readySample [0])) :=
  ⟨by decide, by rfl, by rfl,
   banners_accumulate htmlParse samplePage [0] ⟨none, [], []⟩ ["one", "two"] readySample [0]
     "div" [("role", "main")] [("role", "main")] [Bound.ajaxError]
     (childrenAt readySample [0]) (childrenAt readySample [0])
     (by decide) (by rfl) (by rfl) (by rfl)⟩

/-- C10: the click binding of `testCaseButtons` is matched against the document
at click time. For a button that is inside an `article.test` when it is
clicked, whatever the document `dom0` was when the bindings were made, the
click issues the same single POST as it does on a page that was loaded with
the button in it: the POST of the handler run on the current document. -/
theorem live_click_uses_current_document (dom0 dom : Node) (b : Path)
    (h : matchesAt articleTestButton dom b = true) :
    posts (click (ready dom0).live dom b) = posts (click (ready dom).live (ready dom).dom b)
    ∧ posts (click (ready dom0).live dom b) = posts (testCaseClick dom b)
    ∧ (posts (click (ready dom0).live dom b)).length = 1 := by
  have hm : matchesAt articleTestButton (ready dom).dom b = true := by
    rw [ready_dom]
    simp only [matchesAt_bindGo]
    exact h
  have ht : testCaseClick (ready dom).dom b = testCaseClick dom b := by
    rw [ready_dom]
    simp only [testCaseClick_bindGo]
  rw [ready_live, ready_live, posts_click, posts_click, ht]
  simp [h, hm, testCaseClick, posts]

theorem live_click_uses_current_document_witness :
    matchesAt articleTestButton readySample [0, 0, 0] = false
    ∧ matchesAt articleTestButton
        (successCallback htmlParse [[0, 0]] "<button data-action=\"retry\">Retry</button>"
          readySample) [0, 0, 0] = true
    ∧ posts (click (ready samplePage.toNode).live
        (successCallback htmlParse [[0, 0]] "<button data-action=\"retry\">Retry</button>"
          readySample) [0, 0, 0]) =
        [⟨some "/run/1/", [("action", some "retry")], [[0, 0]]⟩] :=
  ⟨by decide, by decide,
   (live_click_uses_current_document samplePage.toNode
      (successCallback htmlParse [[0, 0]] "<button data-action=\"retry\">Retry</button>"
        readySample) [0, 0, 0] (by decide)).2.1⟩

end MozTrap
